import Mathlib

/-!
Sparse-indexed table format of `savarin/storage`.

A shallow embedding of `src/src/tables.go`: the table writer `Flush` and the
table reader `Open`, together with the pieces of the Go standard library they
are built on (`binary.LittleEndian`, `io.Writer`, `io.SectionReader`,
`binary.Read`).

* unsigned 32-bit integers are natural numbers, reduced modulo `2 ^ 32`
  wherever the Go code can wrap;
* a byte is a `Fin 256`, a byte slice is a list of bytes (a nil slice and an
  empty slice are both `[]`, which is how `string(key) != string(finalKey)`
  and `len` see them);
* an `io.Writer` is a deterministic function of the calls it has received so
  far; the state of the writer is that list of calls;
* a seekable source is the list of bytes it holds.
-/

namespace Storage

/-! ## Bytes and little-endian words -/

abbrev Byte := Fin 256

abbrev Bytes := List Byte

/-- A record of a store: key and value. -/
abbrev Record := Bytes × Bytes

/-- The modulus of `uint32` arithmetic. -/
def wordSize : Nat := 2 ^ 32

/-- Source constant `blockSize = 1 << 12`. -/
def blockSize : Nat := 2 ^ 12

/-- Reduction of a natural number to one byte. -/
def toByte (n : Nat) : Byte := ⟨n % 256, Nat.mod_lt n (by decide)⟩

/-- Go `binary.LittleEndian.PutUint32`: the four bytes of a `uint32`, least
significant first. -/
def PutUint32 (n : Nat) : Bytes :=
  [toByte n, toByte (n / 256), toByte (n / 65536), toByte (n / 16777216)]

/-- Go `binary.LittleEndian.Uint32`: the value of four bytes, least
significant first (shorter inputs are read as far as they go). -/
def Uint32 : Bytes → Nat
  | [b0, b1, b2, b3] => b0.val + 256 * b1.val + 65536 * b2.val + 16777216 * b3.val
  | _ => 0

/-- Go conversion `uint32(n)` of an `int`. -/
def uint32OfInt (n : Int) : Nat := (n % (2 ^ 32 : Int)).toNat

/-- Go conversion `uint32(len(b))`. -/
def uint32OfLen (b : Bytes) : Nat := b.length % wordSize

/-! ## The sink (`io.Writer`) and `simpleWriter` -/

/-- An error value reported by the sink. -/
structure SinkFailure where
  code : Nat
deriving DecidableEq, Repr

/-- Go `io.Writer`: `Write(b)` answers with a byte count and an error. The
answer may depend on every call received before, which is the first
argument. -/
structure Sink where
  Write : List Bytes → Bytes → Int × Option SinkFailure

/-- Source `sparseIndexEntry`. -/
structure sparseIndexEntry where
  key : Bytes
  offset : Nat
deriving DecidableEq, Repr

/-- Source `simpleWriter`: the running offset, and the underlying writer,
represented by the calls it has received. -/
structure simpleWriter where
  Offset : Nat
  Writer : List Bytes
deriving DecidableEq, Repr

/-- Source `(*simpleWriter).Write`. -/
def simpleWriter.Write (snk : Sink) (w : simpleWriter) (b : Bytes) :
    simpleWriter × Option SinkFailure :=
  let r := snk.Write w.Writer b
  let w1 : simpleWriter := { w with Writer := w.Writer ++ [b] }
  match r.2 with
  | some err => (w1, some err)
  | none => ({ w1 with Offset := (w1.Offset + uint32OfInt r.1) % wordSize }, none)

/-- Source `(*simpleWriter).WriteLen`. -/
def simpleWriter.WriteLen (snk : Sink) (w : simpleWriter) (n : Nat) :
    simpleWriter × Option SinkFailure :=
  simpleWriter.Write snk w (PutUint32 n)

/-! ## The store and its range iterator -/

/-- Modelled from the spec: the `RangeIterator` of section 4.2, whose
implementations are not part of the reviewed source. After creation it is
positioned at the first record; `records` holds the current record followed by
the ones still to come. Reading an iterator with no current record is left
undefined by the spec: `exhaustedRead` says what such a read does, `none` for
an abort and `some (k, v)` for a read that hands back `k` and `v`. -/
structure RangeIterator where
  records : List Record
  exhaustedRead : Option Record
deriving DecidableEq, Repr

/-- Modelled from the spec: `key()` reads the current record without
advancing. -/
def RangeIterator.Key (it : RangeIterator) : Option Bytes :=
  match it.records with
  | [] => it.exhaustedRead.map Prod.fst
  | r :: _ => some r.1

/-- Modelled from the spec: `value()` reads the current record without
advancing. -/
def RangeIterator.Value (it : RangeIterator) : Option Bytes :=
  match it.records with
  | [] => it.exhaustedRead.map Prod.snd
  | r :: _ => some r.2

/-- Modelled from the spec: `next()` advances to the following record and
reports whether a current record now exists. -/
def RangeIterator.Next (it : RangeIterator) : RangeIterator × Bool :=
  ({ it with records := it.records.tail }, !it.records.tail.isEmpty)

/-- Byte-wise lexicographic order on keys (a proper prefix sorts first). -/
def keyLt (a b : Bytes) : Prop := List.Lex (fun x y : Byte => x < y) a b

instance keyLt.decidable (a b : Bytes) : Decidable (keyLt a b) :=
  inferInstanceAs (Decidable (List.Lex (fun x y : Byte => x < y) a b))

/-- Modelled from the spec: an ordered store `DB`, whose implementations are
not part of the reviewed source. It is represented by the records it holds, in
the order its iterators walk them, and by what its iterators do when read
without a current record. -/
structure DB where
  records : List Record
  exhaustedRead : Option Record
deriving DecidableEq, Repr

/-- Modelled from the spec: `range_scan(start, end)` of section 4.1, an
iterator over the records with key in `[start, end)`, where an empty `start`
means from the first key and an empty `end` means no upper bound. -/
def DB.RangeScan (db : DB) (start stop : Bytes) : RangeIterator :=
  { records := db.records.filter (fun r =>
      (start.isEmpty || !decide (keyLt r.1 start)) && (stop.isEmpty || decide (keyLt r.1 stop)))
    exhaustedRead := db.exhaustedRead }

/-! ## `Flush` -/

/-- The write of `Flush` at which the sink failed. -/
inductive WriteSite
  | keyLength | key | valueLength | value
  | indexKeyLength | indexKey | indexOffset | footer
deriving DecidableEq, Repr

/-- The error `Flush` returns: the sink's error wrapped with the place it
occurred at. -/
structure FlushError where
  site : WriteSite
  cause : SinkFailure
deriving DecidableEq, Repr

/-- The local variables of `Flush` (source lines 41-52). -/
structure FlushState where
  writer : simpleWriter
  sparseIndex : List sparseIndexEntry
  nextCheckpoint : Nat
  key : Bytes
  value : Bytes
  finalKey : Bytes
  finalOffset : Nat
deriving DecidableEq, Repr

/-- How a piece of `Flush` ends: it runs through, it returns an error, or it
stops at an undefined iterator read. -/
inductive Step
  | ok (st : FlushState)
  | returned (st : FlushState) (err : FlushError)
  | aborted (st : FlushState)
deriving DecidableEq, Repr

/-- Source lines 73-91: the four writes of one record, stopping at the first
one that fails. -/
def writeRecord (snk : Sink) (w : simpleWriter) (key value : Bytes) :
    simpleWriter × Option FlushError :=
  match w.WriteLen snk (uint32OfLen key) with
  | (w1, some err) => (w1, some ⟨.keyLength, err⟩)
  | (w1, none) =>
    match w1.Write snk key with
    | (w2, some err) => (w2, some ⟨.key, err⟩)
    | (w2, none) =>
      match w2.WriteLen snk (uint32OfLen value) with
      | (w3, some err) => (w3, some ⟨.valueLength, err⟩)
      | (w3, none) =>
        match w3.Write snk value with
        | (w4, some err) => (w4, some ⟨.value, err⟩)
        | (w4, none) => (w4, none)

/-- Source lines 55-91: one pass through the body of the record loop, up to
the call of `iter.Next()`. -/
def loopBody (snk : Sink) (iter : RangeIterator) (st : FlushState) : Step :=
  let startOffset := st.writer.Offset
  match iter.Key, iter.Value with
  | some key, some value =>
    let st1 : FlushState := { st with key := key, value := value, finalOffset := startOffset }
    let st2 : FlushState :=
      if st1.nextCheckpoint ≤ startOffset then
        { st1 with
          sparseIndex := st1.sparseIndex ++ [⟨key, startOffset⟩]
          nextCheckpoint := (startOffset + blockSize) % wordSize
          finalKey := key }
      else st1
    match writeRecord snk st2.writer key value with
    | (w, some err) => .returned { st2 with writer := w } err
    | (w, none) => .ok { st2 with writer := w }
  | _, _ => .aborted st

/-- Source lines 54-98: the record loop. The body runs before the iterator is
asked whether a record exists; the loop is left when `iter.Next()` reports
that there is no further record. -/
def flushLoop (snk : Sink) (ex : Option Record) : List Record → FlushState → Step
  | [], st => loopBody snk ⟨[], ex⟩ st
  | r :: rest, st =>
    match loopBody snk ⟨r :: rest, ex⟩ st with
    | .ok st1 =>
      if (RangeIterator.Next ⟨r :: rest, ex⟩).2 then flushLoop snk ex rest st1 else .ok st1
    | other => other

/-- Source lines 100-107: the entry for the last record, appended when its key
is not the key of the entry recorded last. -/
def finalEntry (st : FlushState) : FlushState :=
  if st.key ≠ st.finalKey then
    { st with sparseIndex := st.sparseIndex ++ [⟨st.key, st.finalOffset⟩] }
  else st

/-- Source lines 111-131: the index section, three writes per entry, stopping
at the first one that fails. The line `fmt.Println` prints per entry goes to
standard output, not to the sink, and is left out. -/
def writeIndex (snk : Sink) : List sparseIndexEntry → simpleWriter →
    simpleWriter × Option FlushError
  | [], w => (w, none)
  | e :: rest, w =>
    match w.WriteLen snk (uint32OfLen e.key) with
    | (w1, some err) => (w1, some ⟨.indexKeyLength, err⟩)
    | (w1, none) =>
      match w1.Write snk e.key with
      | (w2, some err) => (w2, some ⟨.indexKey, err⟩)
      | (w2, none) =>
        match w2.WriteLen snk e.offset with
        | (w3, some err) => (w3, some ⟨.indexOffset, err⟩)
        | (w3, none) => writeIndex snk rest w3

/-- What a call of `Flush` leaves behind. -/
inductive Outcome
  | returned (err : Option FlushError)
  | aborted
deriving DecidableEq, Repr

/-- A run of `Flush`: how it ended, the calls the sink received, the sparse
index that was recorded and the offset at which the index section starts. -/
structure FlushRun where
  outcome : Outcome
  calls : List Bytes
  sparseIndex : List sparseIndexEntry
  sparseIndexOffset : Nat
deriving DecidableEq, Repr

/-- The initial local variables of `Flush`: Go zero values. -/
def FlushState.init : FlushState :=
  { writer := ⟨0, []⟩, sparseIndex := [], nextCheckpoint := 0,
    key := [], value := [], finalKey := [], finalOffset := 0 }

/-- The record loop of `Flush` run on a store (source lines 41-98). -/
def flushRecords (db : DB) (snk : Sink) : Step :=
  let iter := db.RangeScan [] []
  flushLoop snk iter.exhaustedRead iter.records FlushState.init

/-- Source `Flush`. -/
def Flush (db : DB) (snk : Sink) : FlushRun :=
  match flushRecords db snk with
  | .aborted st => ⟨.aborted, st.writer.Writer, st.sparseIndex, 0⟩
  | .returned st err => ⟨.returned (some err), st.writer.Writer, st.sparseIndex, 0⟩
  | .ok st0 =>
    let st := finalEntry st0
    let sparseIndexOffset := st.writer.Offset
    match writeIndex snk st.sparseIndex st.writer with
    | (w, some err) => ⟨.returned (some err), w.Writer, st.sparseIndex, sparseIndexOffset⟩
    | (w, none) =>
      match w.WriteLen snk sparseIndexOffset with
      | (w1, some err) =>
        ⟨.returned (some (FlushError.mk .footer err)), w1.Writer, st.sparseIndex,
          sparseIndexOffset⟩
      | (w1, none) => ⟨.returned none, w1.Writer, st.sparseIndex, sparseIndexOffset⟩

/-- The bytes a sink that stores what it is given has received. -/
def FlushRun.written (run : FlushRun) : Bytes := run.calls.flatten

/-- A sink that accepts every write in full. -/
def acceptAll : Sink := ⟨fun _ b => ((b.length : Int), none)⟩

/-- A sink accepts all writes when each call reports every byte written and no
error. -/
def Sink.Accepts (snk : Sink) : Prop :=
  ∀ (earlier : List Bytes) (b : Bytes), snk.Write earlier b = ((b.length : Int), none)

/-! ## The source (`ReaderSeeker`) and `Open` -/

instance instDecidableEqExcept {ε α : Type} [DecidableEq ε] [DecidableEq α] :
    DecidableEq (Except ε α)
  | .ok a, .ok b => if h : a = b then isTrue (by rw [h]) else isFalse (by simpa using h)
  | .error a, .error b => if h : a = b then isTrue (by rw [h]) else isFalse (by simpa using h)
  | .ok _, .error _ => isFalse (by simp)
  | .error _, .ok _ => isFalse (by simp)

/-- Go `io.EOF` and `io.ErrUnexpectedEOF`. -/
inductive ReadError
  | EOF | ErrUnexpectedEOF
deriving DecidableEq, Repr

/-- Go `io.SeekStart` and `io.SeekEnd`. -/
inductive Whence
  | SeekStart | SeekEnd
deriving DecidableEq, Repr

/-- Modelled from the spec: `ReaderSeeker`, the random-access byte source of
section 6, whose declaration is not part of the reviewed source. The source is
the list of bytes it holds. `Seek` answers with the new absolute position and
fails when that position would be negative. -/
def Seek (stor : Bytes) (offset : Int) (whence : Whence) : Option Int :=
  let abs : Int :=
    match whence with
    | .SeekStart => offset
    | .SeekEnd => (stor.length : Int) + offset
  if abs < 0 then none else some abs

/-- Go `io.SectionReader` on the source: the absolute position of the next
read and the absolute position the section ends at. -/
structure SectionReader where
  off : Nat
  limit : Nat
deriving DecidableEq, Repr

/-- Go `io.NewSectionReader(r, off, n)`. -/
def NewSectionReader (off n : Nat) : SectionReader := ⟨off, off + n⟩

/-- Go `ReadAt` of an in-memory source, for a buffer of `n` bytes: the bytes
available from `off`, and `io.EOF` when they are fewer than `n`. -/
def ReadAt (stor : Bytes) (n off : Nat) : Bytes × Option ReadError :=
  let got := (stor.drop off).take n
  (got, if got.length < n then some .EOF else none)

/-- Go `(*SectionReader).Read` for a buffer of `n` bytes: `io.EOF` at the end
of the section, otherwise one `ReadAt` of at most the bytes the section still
holds. A short read is not an error. -/
def SectionReader.Read (stor : Bytes) (s : SectionReader) (n : Nat) :
    SectionReader × Bytes × Option ReadError :=
  if s.limit ≤ s.off then (s, [], some .EOF)
  else
    let n1 := if s.limit - s.off < n then s.limit - s.off else n
    let r := ReadAt stor n1 s.off
    ({ s with off := s.off + r.1.length }, r.1, r.2)

/-- Go `binary.Read(r, binary.LittleEndian, &x)` for a `uint32` on a section
reader, which is `io.ReadFull` of four bytes: `io.EOF` when no byte could be
read, `io.ErrUnexpectedEOF` when one to three bytes could be read, the decoded
word otherwise. -/
def ReadUint32 (stor : Bytes) (s : SectionReader) : SectionReader × Except ReadError Nat :=
  let got := (stor.drop s.off).take (min 4 (s.limit - s.off))
  let s1 : SectionReader := { s with off := s.off + got.length }
  if got.length = 4 then (s1, .ok (Uint32 got))
  else if got.length = 0 then (s1, .error .EOF)
  else (s1, .error .ErrUnexpectedEOF)

/-- Source `Table`. -/
structure Table where
  reader : Bytes
  sparseIndex : List sparseIndexEntry
deriving DecidableEq, Repr

/-- The places at which `Open` returns an error. -/
inductive OpenError
  | seekEnd | readIndexStart | indexStartPastEnd | seekIndexStart
  | readKeyLength | eofKey | readKey | eofOffset | readOffset
deriving DecidableEq, Repr

/-- Source lines 177-213: the loop reading the index entries. The first
argument bounds the number of passes; `none` is the answer of a loop that was
given too few. -/
def openLoop (stor : Bytes) : Nat → SectionReader → List sparseIndexEntry →
    Option (Except OpenError (List sparseIndexEntry))
  | 0, _, _ => none
  | fuel + 1, indexReader, sparseIndex =>
    match ReadUint32 stor indexReader with
    | (_, .error .EOF) => some (.ok sparseIndex)
    | (_, .error .ErrUnexpectedEOF) => some (.error .readKeyLength)
    | (rd1, .ok keyLength) =>
      match rd1.Read stor keyLength with
      | (_, _, some .EOF) => some (.error .eofKey)
      | (_, _, some .ErrUnexpectedEOF) => some (.error .readKey)
      | (rd2, got, none) =>
        let key := got ++ List.replicate (keyLength - got.length) (0 : Byte)
        match ReadUint32 stor rd2 with
        | (_, .error .EOF) => some (.error .eofOffset)
        | (_, .error .ErrUnexpectedEOF) => some (.error .readOffset)
        | (rd3, .ok blockOffset) =>
          openLoop stor fuel rd3 (sparseIndex ++ [⟨key, blockOffset⟩])

/-- Source `Open`. The answer is `none` only if the entry loop was given too
few passes, which `Open_returns` excludes. -/
def Open (stor : Bytes) : Option (Except OpenError Table) :=
  match Seek stor (-4) .SeekEnd with
  | none => some (.error .seekEnd)
  | some indexEnd =>
    match ReadUint32 stor ⟨indexEnd.toNat, stor.length⟩ with
    | (_, .error _) => some (.error .readIndexStart)
    | (_, .ok s) =>
      let indexStart : Int := (s : Int)
      if indexStart > indexEnd then some (.error .indexStartPastEnd)
      else if indexStart = indexEnd then some (.ok ⟨stor, []⟩)
      else
        match Seek stor indexStart .SeekStart with
        | none => some (.error .seekIndexStart)
        | some _ =>
          let indexReader := NewSectionReader indexStart.toNat (indexEnd - indexStart).toNat
          match openLoop stor stor.length indexReader [] with
          | none => none
          | some (.error err) => some (.error err)
          | some (.ok sparseIndex) => some (.ok ⟨stor, sparseIndex⟩)

/-! ## The table layout, stated on lists -/

/-- One record of the data section: `length(key) | key | length(value) | value`. -/
def encodeRecord (r : Record) : Bytes :=
  PutUint32 r.1.length ++ r.1 ++ PutUint32 r.2.length ++ r.2

/-- The data section: the records one after the other. -/
def dataSection (recs : List Record) : Bytes := recs.flatMap encodeRecord

/-- One entry of the index section: `length(key) | key | offset`. -/
def encodeEntry (e : sparseIndexEntry) : Bytes :=
  PutUint32 e.key.length ++ e.key ++ PutUint32 e.offset

/-- The index section: the entries one after the other. -/
def indexSection (idx : List sparseIndexEntry) : Bytes := idx.flatMap encodeEntry

/-- The number of bytes of a serialized record. -/
def recordSize (r : Record) : Nat := 8 + r.1.length + r.2.length

/-- The number of bytes of the data section. -/
def dataSize (recs : List Record) : Nat := (recs.map recordSize).sum

/-- Every record paired with the offset its serialization starts at, for a
data section that starts at `off`. -/
def recordStarts (off : Nat) : List Record → List sparseIndexEntry
  | [] => []
  | r :: rest => ⟨r.1, off⟩ :: recordStarts (off + recordSize r) rest

/-- The checkpoint rule of the spec, section 4.6, in its words: an entry is
recorded when the offset has reached the checkpoint, and the checkpoint then
moves on by one block size. -/
def specCheckpoints (checkpoint off : Nat) : List Record → List sparseIndexEntry
  | [] => []
  | r :: rest =>
    if checkpoint ≤ off then
      ⟨r.1, off⟩ :: specCheckpoints (checkpoint + blockSize) (off + recordSize r) rest
    else specCheckpoints checkpoint (off + recordSize r) rest

/-- The checkpoint rule as the code has it: an entry is recorded when the
offset has reached the checkpoint, and the checkpoint is then set one block
size past that offset, in `uint32` arithmetic. -/
def codeCheckpoints (checkpoint off : Nat) : List Record → List sparseIndexEntry
  | [] => []
  | r :: rest =>
    if checkpoint ≤ off then
      ⟨r.1, off⟩ :: codeCheckpoints ((off + blockSize) % wordSize)
        ((off + recordSize r) % wordSize) rest
    else codeCheckpoints checkpoint ((off + recordSize r) % wordSize) rest

/-- The local variables of `Flush` after one pass of the record loop over the
record `r`, when the sink accepts all four writes of the pass. -/
def acceptedBody (st : FlushState) (r : Record) : FlushState :=
  let startOffset := st.writer.Offset
  { writer :=
      ⟨(startOffset + recordSize r) % wordSize,
        st.writer.Writer ++ [PutUint32 r.1.length, r.1, PutUint32 r.2.length, r.2]⟩
    sparseIndex :=
      if st.nextCheckpoint ≤ startOffset then st.sparseIndex ++ [⟨r.1, startOffset⟩]
      else st.sparseIndex
    nextCheckpoint :=
      if st.nextCheckpoint ≤ startOffset then (startOffset + blockSize) % wordSize
      else st.nextCheckpoint
    key := r.1
    value := r.2
    finalKey := if st.nextCheckpoint ≤ startOffset then r.1 else st.finalKey
    finalOffset := startOffset }

/-- An index entry that fits the file format: key length and offset are
`uint32` values. -/
def sparseIndexEntry.Fits (e : sparseIndexEntry) : Prop :=
  e.key.length < wordSize ∧ e.offset < wordSize

/-- Every earlier call of the sink in `calls` was answered without an error. -/
def AllAccepted (snk : Sink) (calls : List Bytes) : Prop :=
  ∀ (pre : List Bytes) (b : Bytes) (post : List Bytes),
    calls = pre ++ b :: post → (snk.Write pre b).2 = none

/-- The last call in `calls` was answered with the error `c`, and every call
before it was answered without an error. -/
def FailedLast (snk : Sink) (calls : List Bytes) (c : SinkFailure) : Prop :=
  ∃ (pre : List Bytes) (b : Bytes),
    calls = pre ++ [b] ∧ AllAccepted snk pre ∧ (snk.Write pre b).2 = some c

/-- The calls that write the index section. -/
def indexCalls (idx : List sparseIndexEntry) : List Bytes :=
  idx.flatMap (fun e => [PutUint32 e.key.length, e.key, PutUint32 e.offset])

/-- The entry recorded last carries the key held in `finalKey`. -/
def LastKeyRecorded (st : FlushState) : Prop :=
  ∃ e, st.sparseIndex.getLast? = some e ∧ e.key = st.finalKey

/-- The calls a writer has issued after a piece of `Flush`: all accepted when
the piece reports no error, and ending with the failed call when it reports
one. -/
def Traced (snk : Sink) (w : simpleWriter) : Option SinkFailure → Prop
  | none => AllAccepted snk w.Writer
  | some c => FailedLast snk w.Writer c

/-- What the calls issued so far look like at the end of a piece of `Flush`. -/
def StepTraced (snk : Sink) (recs : List Record) (ex : Option Record) : Step → Prop
  | .ok st => AllAccepted snk st.writer.Writer
  | .returned st err => FailedLast snk st.writer.Writer err.cause
  | .aborted st => AllAccepted snk st.writer.Writer ∧ recs = [] ∧ ex = none

/-- The three-record store used against the checkpoint rule of the spec:
records of 5000, 3500 and 10 bytes, starting at offsets 0, 5000 and 8500. -/
def checkpointStore : DB :=
  ⟨[([97], List.replicate 4991 0), ([98], List.replicate 3491 0), ([99], [1])], none⟩

instance keyLt.isTrans : IsTrans Bytes keyLt := by
  unfold keyLt; infer_instance

/-- The position `Open` computes as `indexEnd`: four bytes before the end of
the source. -/
def indexEnd (stor : Bytes) : Nat := stor.length - 4

/-- The word `Open` reads as `indexStart`: the little-endian value of the last
four bytes of the source. -/
def indexStart (stor : Bytes) : Nat := Uint32 (stor.drop (stor.length - 4))

/-- The bytes of the source in `[indexStart, indexEnd)`. -/
def indexBytes (stor : Bytes) : Bytes :=
  (stor.drop (indexStart stor)).take (indexEnd stor - indexStart stor)

/-- The bytes of the source a section reader still holds. -/
def SectionReader.remaining (stor : Bytes) (s : SectionReader) : Bytes :=
  (stor.drop s.off).take (s.limit - s.off)

/-- The entry loop of `Open` (source lines 177-213), stated on the bytes the
section reader still holds rather than on positions in the source. -/
def parseIndex : Nat → Bytes → List sparseIndexEntry →
    Option (Except OpenError (List sparseIndexEntry))
  | 0, _, _ => none
  | fuel + 1, rem, idx =>
    if rem = [] then some (.ok idx)
    else if rem.length < 4 then some (.error .readKeyLength)
    else
      let keyLength := Uint32 (rem.take 4)
      let rem1 := rem.drop 4
      if rem1 = [] then some (.error .eofKey)
      else
        let got := rem1.take keyLength
        let key := got ++ List.replicate (keyLength - got.length) (0 : Byte)
        let rem2 := rem1.drop keyLength
        if rem2 = [] then some (.error .eofOffset)
        else if rem2.length < 4 then some (.error .readOffset)
        else parseIndex fuel (rem2.drop 4) (idx ++ [⟨key, Uint32 (rem2.take 4)⟩])

/-- The value of the record of `truncationStore`: `2 ^ 24 - 9` bytes, chosen so
that the record serializes to exactly `2 ^ 24` bytes and so that the bytes of
the value read as index entries. -/
def truncationValue : Bytes :=
  [3, 0, 0, 0, 0, 0, 0, 0, 0, 0, 0] ++ List.replicate 16777192 0 ++ [4, 0, 0, 0]

/-- A store with the single record `("k", truncationValue)`. -/
def truncationStore : DB := ⟨[([107], truncationValue)], none⟩

/-- The index `Open` reads from the table of `truncationStore` after its final
byte has been removed: the entries the data section happens to spell. -/
def truncationIndex : List sparseIndexEntry :=
  [⟨[107], 16777207⟩, ⟨[0, 0, 0], 0⟩] ++ List.replicate 2097149 ⟨[], 0⟩ ++
    [⟨[1, 0, 0, 0], 107⟩]

/-- Byte-wise lexicographic order on keys, equality included. -/
def keyLe (a b : Bytes) : Prop := a = b ∨ keyLt a b

/-- A store of three records whose second record starts at `2 ^ 32 - 4096`:
the records serialize to `2 ^ 32 - 4096`, 10 and 10 bytes, less than `2 ^ 32`
bytes in total. -/
def wrapStore : DB :=
  ⟨[([97], List.replicate 4294963191 0), ([98], [1]), ([99], [2])], none⟩

/-! ## Proofs -/

theorem uint32OfInt_natCast (n : Nat) : uint32OfInt (n : Int) = n % wordSize := by
  unfold uint32OfInt wordSize
  have h : ((n : Int) % (2 ^ 32 : Int)) = ((n % 2 ^ 32 : Nat) : Int) := by
    push_cast; rfl
  rw [h, Int.toNat_ofNat]

@[simp] theorem PutUint32_length (n : Nat) : (PutUint32 n).length = 4 := rfl

theorem toByte_mod (n : Nat) : toByte (n % wordSize) = toByte n := by
  unfold toByte wordSize
  apply Fin.ext
  show n % 2 ^ 32 % 256 = n % 256
  omega

theorem PutUint32_mod (n : Nat) : PutUint32 (n % wordSize) = PutUint32 n := by
  unfold PutUint32 toByte wordSize
  simp only [List.cons.injEq, Fin.mk.injEq, and_true]
  refine ⟨?_, ?_, ?_, ?_⟩ <;> omega

theorem Uint32_PutUint32 (n : Nat) : Uint32 (PutUint32 n) = n % wordSize := by
  unfold PutUint32 Uint32 toByte wordSize
  simp only
  omega

theorem Write_accepts {snk : Sink} (h : snk.Accepts) (w : simpleWriter) (b : Bytes) :
    w.Write snk b = (⟨(w.Offset + b.length) % wordSize, w.Writer ++ [b]⟩, none) := by
  unfold simpleWriter.Write
  simp only [h w.Writer b, uint32OfInt_natCast, Nat.add_mod_mod]

theorem WriteLen_accepts {snk : Sink} (h : snk.Accepts) (w : simpleWriter) (n : Nat) :
    w.WriteLen snk n = (⟨(w.Offset + 4) % wordSize, w.Writer ++ [PutUint32 n]⟩, none) := by
  unfold simpleWriter.WriteLen
  rw [Write_accepts h, PutUint32_length]

theorem writeRecord_accepts {snk : Sink} (h : snk.Accepts) (w : simpleWriter) (k v : Bytes) :
    writeRecord snk w k v =
      (⟨(w.Offset + recordSize (k, v)) % wordSize,
        w.Writer ++ [PutUint32 k.length, k, PutUint32 v.length, v]⟩, none) := by
  unfold writeRecord
  simp only [WriteLen_accepts h, Write_accepts h, uint32OfLen, PutUint32_mod, recordSize,
    List.append_assoc, List.singleton_append, Prod.mk.injEq, and_true, simpleWriter.mk.injEq]
  refine ⟨?_, rfl⟩
  unfold wordSize
  omega

theorem loopBody_accepts {snk : Sink} (h : snk.Accepts) (ex : Option Record) (r : Record)
    (rest : List Record) (st : FlushState) :
    loopBody snk ⟨r :: rest, ex⟩ st = .ok (acceptedBody st r) := by
  unfold loopBody acceptedBody
  simp only [RangeIterator.Key, RangeIterator.Value, writeRecord_accepts h]
  split_ifs <;> rfl

theorem flushLoop_accepts {snk : Sink} (h : snk.Accepts) (ex : Option Record) :
    ∀ (recs : List Record) (st : FlushState), recs ≠ [] →
      flushLoop snk ex recs st = .ok (recs.foldl acceptedBody st)
  | [], _, hne => absurd rfl hne
  | [r], st, _ => by
    simp [flushLoop, loopBody_accepts h, RangeIterator.Next]
  | r :: r2 :: rest, st, _ => by
    rw [flushLoop, loopBody_accepts h]
    simp only [RangeIterator.Next, List.tail_cons, List.isEmpty_cons, Bool.not_false, if_true,
      List.foldl_cons]
    exact flushLoop_accepts h ex (r2 :: rest) (acceptedBody st r) (by simp)

theorem writeIndex_accepts {snk : Sink} (h : snk.Accepts) :
    ∀ (idx : List sparseIndexEntry) (w : simpleWriter), ∃ off,
      writeIndex snk idx w = (⟨off, w.Writer ++ indexCalls idx⟩, none)
  | [], w => ⟨w.Offset, by simp [writeIndex, indexCalls]⟩
  | e :: rest, w => by
    simp only [writeIndex, WriteLen_accepts h, Write_accepts h, uint32OfLen, PutUint32_mod]
    obtain ⟨off, hoff⟩ := writeIndex_accepts h rest
      ⟨((((w.Offset + 4) % wordSize + e.key.length) % wordSize + 4) % wordSize),
        w.Writer ++ [PutUint32 e.key.length] ++ [e.key] ++ [PutUint32 e.offset]⟩
    refine ⟨off, ?_⟩
    rw [hoff]
    simp [indexCalls]

theorem indexCalls_flatten (idx : List sparseIndexEntry) :
    (indexCalls idx).flatten = indexSection idx := by
  induction idx with
  | nil => rfl
  | cons e rest ih =>
    simp only [indexCalls, indexSection, List.flatMap_cons, List.flatten_append] at ih ⊢
    rw [ih]
    simp [encodeEntry]

theorem RangeScan_all (db : DB) : db.RangeScan [] [] = ⟨db.records, db.exhaustedRead⟩ := by
  simp [DB.RangeScan]

theorem flushRecords_accepts {snk : Sink} (h : snk.Accepts) (db : DB) (hne : db.records ≠ []) :
    flushRecords db snk = .ok (db.records.foldl acceptedBody FlushState.init) := by
  unfold flushRecords
  rw [RangeScan_all]
  exact flushLoop_accepts h _ _ _ hne

theorem Flush_accepts {snk : Sink} (h : snk.Accepts) (db : DB) (hne : db.records ≠ []) :
    Flush db snk =
      ⟨.returned none,
        (db.records.foldl acceptedBody FlushState.init).writer.Writer ++
          indexCalls (finalEntry (db.records.foldl acceptedBody FlushState.init)).sparseIndex ++
          [PutUint32 (db.records.foldl acceptedBody FlushState.init).writer.Offset],
        (finalEntry (db.records.foldl acceptedBody FlushState.init)).sparseIndex,
        (db.records.foldl acceptedBody FlushState.init).writer.Offset⟩ := by
  unfold Flush
  rw [flushRecords_accepts h db hne]
  have hw : ∀ st : FlushState, (finalEntry st).writer = st.writer := by
    intro st; unfold finalEntry; split_ifs <;> rfl
  obtain ⟨off, hoff⟩ := writeIndex_accepts h
    (finalEntry (db.records.foldl acceptedBody FlushState.init)).sparseIndex
    (finalEntry (db.records.foldl acceptedBody FlushState.init)).writer
  rw [hw] at hoff
  simp only [hoff, WriteLen_accepts h, hw]

theorem foldl_writer (recs : List Record) : ∀ (st : FlushState),
    (recs.foldl acceptedBody st).writer.Writer.flatten =
      st.writer.Writer.flatten ++ dataSection recs := by
  induction recs with
  | nil => intro st; simp [dataSection]
  | cons r rest ih =>
    intro st
    rw [List.foldl_cons, ih]
    simp [acceptedBody, dataSection, encodeRecord]

theorem dataSection_length (recs : List Record) : (dataSection recs).length = dataSize recs := by
  induction recs with
  | nil => rfl
  | cons r rest ih =>
    simp only [dataSection, List.flatMap_cons, List.length_append, dataSize, List.map_cons,
      List.sum_cons] at ih ⊢
    rw [ih]
    simp [encodeRecord, recordSize]
    omega

theorem foldl_offset (recs : List Record) : ∀ (st : FlushState),
    (recs.foldl acceptedBody st).writer.Offset % wordSize =
      (st.writer.Offset + dataSize recs) % wordSize := by
  induction recs with
  | nil => intro st; simp [dataSize]
  | cons r rest ih =>
    intro st
    rw [List.foldl_cons, ih]
    simp only [acceptedBody, dataSize, List.map_cons, List.sum_cons]
    unfold wordSize
    omega

theorem foldl_index (recs : List Record) : ∀ (st : FlushState),
    (recs.foldl acceptedBody st).sparseIndex =
      st.sparseIndex ++ codeCheckpoints st.nextCheckpoint st.writer.Offset recs := by
  induction recs with
  | nil => intro st; simp [codeCheckpoints]
  | cons r rest ih =>
    intro st
    rw [List.foldl_cons, ih]
    by_cases hc : st.nextCheckpoint ≤ st.writer.Offset
    · simp [acceptedBody, codeCheckpoints, hc]
    · simp [acceptedBody, codeCheckpoints, hc]

theorem foldl_offset_lt (recs : List Record) : ∀ (st : FlushState),
    st.writer.Offset < wordSize → (recs.foldl acceptedBody st).writer.Offset < wordSize := by
  induction recs with
  | nil => intro st h; exact h
  | cons r rest ih =>
    intro st _
    rw [List.foldl_cons]
    exact ih _ (Nat.mod_lt _ (by decide))

theorem foldl_init_offset (recs : List Record) (h : dataSize recs < wordSize) :
    (recs.foldl acceptedBody FlushState.init).writer.Offset = dataSize recs := by
  have h1 := foldl_offset recs FlushState.init
  have h2 := foldl_offset_lt recs FlushState.init (by decide)
  rw [Nat.mod_eq_of_lt h2] at h1
  rw [h1]
  simp only [FlushState.init, Nat.zero_add]
  exact Nat.mod_eq_of_lt h

theorem dataSize_append (a b : List Record) : dataSize (a ++ b) = dataSize a + dataSize b := by
  simp [dataSize]

theorem recordStarts_append (a b : List Record) : ∀ off,
    recordStarts off (a ++ b) = recordStarts off a ++ recordStarts (off + dataSize a) b := by
  induction a with
  | nil => intro off; simp [recordStarts, dataSize]
  | cons r rest ih =>
    intro off
    have h := ih (off + recordSize r)
    simp only [dataSize, List.map_cons, List.sum_cons, Nat.add_assoc] at h ⊢
    show (⟨r.1, off⟩ :: recordStarts (off + recordSize r) (rest ++ b)) = _
    rw [h]
    rfl

theorem codeCheckpoints_sublist (recs : List Record) : ∀ (cp off : Nat),
    off + dataSize recs < wordSize →
      List.Sublist (codeCheckpoints cp off recs) (recordStarts off recs) := by
  induction recs with
  | nil => intro cp off _; simp [codeCheckpoints, recordStarts]
  | cons r rest ih =>
    intro cp off h
    simp only [dataSize, List.map_cons, List.sum_cons] at h
    have hsz : (off + recordSize r) % wordSize = off + recordSize r :=
      Nat.mod_eq_of_lt (by omega)
    have hrec : off + recordSize r + dataSize rest < wordSize := by
      simp only [dataSize]; omega
    simp only [codeCheckpoints, recordStarts, hsz]
    split_ifs
    · exact List.Sublist.cons₂ _ (ih _ _ hrec)
    · exact List.Sublist.cons _ (ih _ _ hrec)

theorem acceptedBody_lastKey (st : FlushState) (r : Record)
    (h : LastKeyRecorded st ∨ st.nextCheckpoint ≤ st.writer.Offset) :
    LastKeyRecorded (acceptedBody st r) := by
  unfold LastKeyRecorded acceptedBody
  by_cases hc : st.nextCheckpoint ≤ st.writer.Offset
  · simp [hc]
  · simp only [hc, if_false]
    rcases h with h | h
    · exact h
    · exact absurd h hc

theorem foldl_lastKey (recs : List Record) : ∀ (st : FlushState),
    LastKeyRecorded st → LastKeyRecorded (recs.foldl acceptedBody st) := by
  induction recs with
  | nil => intro st h; exact h
  | cons r rest ih =>
    intro st h
    rw [List.foldl_cons]
    exact ih _ (acceptedBody_lastKey st r (Or.inl h))

theorem foldl_init_lastKey (recs : List Record) (hne : recs ≠ []) :
    LastKeyRecorded (recs.foldl acceptedBody FlushState.init) := by
  cases recs with
  | nil => exact absurd rfl hne
  | cons r rest =>
    rw [List.foldl_cons]
    exact foldl_lastKey rest _ (acceptedBody_lastKey _ r (Or.inr (by decide)))

theorem init_checkpoint : FlushState.init.nextCheckpoint ≤ FlushState.init.writer.Offset := by
  decide

/-- The sparse index after the final-entry rule, for a loop that ended with
the record `r` from the state `s`. -/
theorem finalEntry_acceptedBody (s : FlushState) (r : Record) :
    (finalEntry (acceptedBody s r)).sparseIndex =
      if s.nextCheckpoint ≤ s.writer.Offset ∨ r.1 ≠ s.finalKey then
        s.sparseIndex ++ [⟨r.1, s.writer.Offset⟩]
      else s.sparseIndex := by
  unfold finalEntry acceptedBody
  by_cases hc : s.nextCheckpoint ≤ s.writer.Offset
  · simp [hc]
  · by_cases hk : r.1 = s.finalKey
    · simp [hc, hk]
    · simp [hc, hk]

theorem Flush_index_sublist {snk : Sink} (h : snk.Accepts) (db : DB) (hne : db.records ≠ [])
    (hsize : dataSize db.records < wordSize) :
    List.Sublist (Flush db snk).sparseIndex (recordStarts 0 db.records) := by
  rw [Flush_accepts h db hne]
  simp only
  obtain ⟨init, r, hrec⟩ : ∃ init r, db.records = init ++ [r] :=
    ⟨db.records.dropLast, db.records.getLast hne, (List.dropLast_append_getLast hne).symm⟩
  rw [hrec] at hsize ⊢
  rw [dataSize_append] at hsize
  have hinit : dataSize init < wordSize := by omega
  rw [List.foldl_append, List.foldl_cons, List.foldl_nil, finalEntry_acceptedBody,
    recordStarts_append, foldl_init_offset init hinit, foldl_index]
  have hsub := codeCheckpoints_sublist init 0 0 (by omega)
  simp only [FlushState.init, List.nil_append, recordStarts, Nat.zero_add] at hsub ⊢
  split_ifs
  · exact List.Sublist.append hsub (List.Sublist.refl _)
  · exact (hsub.trans (List.sublist_append_left _ _))

theorem acceptAll_accepts : acceptAll.Accepts := fun _ _ => rfl

theorem Flush_written {snk : Sink} (h : snk.Accepts) (db : DB) (hne : db.records ≠ []) :
    (Flush db snk).written =
      dataSection db.records ++ indexSection (Flush db snk).sparseIndex ++
        PutUint32 (dataSection db.records).length := by
  rw [Flush_accepts h db hne]
  simp only [FlushRun.written, List.flatten_append, foldl_writer, indexCalls_flatten]
  have h1 := foldl_offset db.records FlushState.init
  rw [← PutUint32_mod, h1, PutUint32_mod, dataSection_length]
  simp [FlushState.init]

/-- C1. For a store with at least one record whose data section is shorter
than `2 ^ 32` bytes and a sink that accepts all writes, `Flush` returns no
error and the bytes written are the data section (the records in iterator
order, each as length, key, length, value), then the index section (the
recorded entries, each as length, key, offset), then the four-byte
little-endian footer, which decodes to the byte length of the data section. -/
theorem Flush_writes_table (db : DB) (snk : Sink) (hsnk : snk.Accepts)
    (hne : db.records ≠ []) (hsize : (dataSection db.records).length < wordSize) :
    (Flush db snk).outcome = .returned none ∧
    (Flush db snk).written =
      dataSection db.records ++ indexSection (Flush db snk).sparseIndex ++
        PutUint32 (dataSection db.records).length ∧
    Uint32 (PutUint32 (dataSection db.records).length) = (dataSection db.records).length := by
  refine ⟨?_, Flush_written hsnk db hne, ?_⟩
  · rw [Flush_accepts hsnk db hne]
  · rw [Uint32_PutUint32, Nat.mod_eq_of_lt hsize]

theorem Flush_writes_table_witness :
    (Flush ⟨[([107], [118])], none⟩ acceptAll).outcome = .returned none ∧
    (Flush ⟨[([107], [118])], none⟩ acceptAll).written =
      dataSection [([107], [118])] ++
        indexSection (Flush ⟨[([107], [118])], none⟩ acceptAll).sparseIndex ++
        PutUint32 (dataSection [([107], [118])]).length ∧
    Uint32 (PutUint32 (dataSection [([107], [118])]).length) =
      (dataSection [([107], [118])]).length :=
  Flush_writes_table ⟨[([107], [118])], none⟩ acceptAll acceptAll_accepts (by decide) (by decide)

theorem recordStarts_keys (recs : List Record) : ∀ off,
    (recordStarts off recs).map sparseIndexEntry.key = recs.map Prod.fst := by
  induction recs with
  | nil => intro off; rfl
  | cons r rest ih => intro off; simp [recordStarts, ih]

theorem recordStarts_ge (recs : List Record) : ∀ off, ∀ e ∈ recordStarts off recs,
    off ≤ e.offset := by
  induction recs with
  | nil => intro off e he; simp [recordStarts] at he
  | cons r rest ih =>
    intro off e he
    simp only [recordStarts, List.mem_cons] at he
    rcases he with he | he
    · rw [he]
    · exact Nat.le_trans (Nat.le_add_right _ _) (ih _ e he)

theorem recordStarts_offsets (recs : List Record) : ∀ off,
    ((recordStarts off recs).map sparseIndexEntry.offset).Pairwise (fun a b => a < b) := by
  induction recs with
  | nil => intro off; simp [recordStarts]
  | cons r rest ih =>
    intro off
    simp only [recordStarts, List.map_cons, List.pairwise_cons, List.mem_map]
    refine ⟨?_, ih _⟩
    rintro o ⟨e, he, rfl⟩
    have := recordStarts_ge rest _ e he
    simp only [recordSize] at this
    omega

theorem mem_recordStarts (recs : List Record) : ∀ off, ∀ e ∈ recordStarts off recs,
    ∃ pre r post, recs = pre ++ r :: post ∧ e = ⟨r.1, off + dataSize pre⟩ := by
  induction recs with
  | nil => intro off e he; simp [recordStarts] at he
  | cons r rest ih =>
    intro off e he
    simp only [recordStarts, List.mem_cons] at he
    rcases he with he | he
    · exact ⟨[], r, rest, rfl, by simpa [dataSize] using he⟩
    · obtain ⟨pre, r2, post, h1, h2⟩ := ih _ e he
      refine ⟨r :: pre, r2, post, by rw [h1]; rfl, ?_⟩
      simp only [dataSize, List.map_cons, List.sum_cons] at h2 ⊢
      rw [h2, Nat.add_assoc]

/-- C2. Sparse index monotonicity: for a store with at least one record,
strictly ascending keys and a data section shorter than `2 ^ 32` bytes, and a
sink that accepts all writes, the index `Flush` records has strictly
increasing keys and strictly increasing offsets, and each entry's offset is
the offset at which a record with the entry's key starts in the data
section. -/
theorem Flush_index_monotone (db : DB) (snk : Sink) (hsnk : snk.Accepts)
    (hne : db.records ≠ []) (hasc : (db.records.map Prod.fst).Chain' keyLt)
    (hsize : (dataSection db.records).length < wordSize) :
    ((Flush db snk).sparseIndex.map sparseIndexEntry.key).Pairwise keyLt ∧
    ((Flush db snk).sparseIndex.map sparseIndexEntry.offset).Pairwise (fun a b => a < b) ∧
    ∀ e ∈ (Flush db snk).sparseIndex, ∃ pre r post,
      db.records = pre ++ r :: post ∧ r.1 = e.key ∧ e.offset = (dataSection pre).length := by
  rw [dataSection_length] at hsize
  have hsub := Flush_index_sublist hsnk db hne hsize
  refine ⟨?_, ?_, ?_⟩
  · have hk := hsub.map sparseIndexEntry.key
    rw [recordStarts_keys] at hk
    exact (List.chain'_iff_pairwise.mp hasc).sublist hk
  · exact (recordStarts_offsets db.records 0).sublist (hsub.map sparseIndexEntry.offset)
  · intro e he
    obtain ⟨pre, r, post, h1, h2⟩ := mem_recordStarts db.records 0 e (hsub.subset he)
    refine ⟨pre, r, post, h1, ?_, ?_⟩
    · rw [h2]
    · rw [h2, dataSection_length]; simp

theorem Flush_index_monotone_witness :
    ((Flush ⟨[([97], [1]), ([98], [2])], none⟩ acceptAll).sparseIndex.map
      sparseIndexEntry.key).Pairwise keyLt ∧
    ((Flush ⟨[([97], [1]), ([98], [2])], none⟩ acceptAll).sparseIndex.map
      sparseIndexEntry.offset).Pairwise (fun a b => a < b) ∧
    ∀ e ∈ (Flush ⟨[([97], [1]), ([98], [2])], none⟩ acceptAll).sparseIndex, ∃ pre r post,
      (DB.mk [([97], [1]), ([98], [2])] none).records = pre ++ r :: post ∧ r.1 = e.key ∧
        e.offset = (dataSection pre).length :=
  Flush_index_monotone ⟨[([97], [1]), ([98], [2])], none⟩ acceptAll acceptAll_accepts
    (by decide) (List.chain'_cons.mpr ⟨by decide, List.chain'_singleton _⟩) (by decide)

theorem loopBody_accepts_exhausted {snk : Sink} (h : snk.Accepts) (k v : Bytes)
    (st : FlushState) :
    loopBody snk ⟨[], some (k, v)⟩ st = .ok (acceptedBody st (k, v)) := by
  unfold loopBody acceptedBody
  simp only [RangeIterator.Key, RangeIterator.Value, Option.map, writeRecord_accepts h]
  split_ifs <;> rfl

/-- C3. Evaluation of `Flush` on a store without records, with a sink that
accepts all writes. The body of the record loop runs before the iterator has
been asked for a record. Where the read of the exhausted iterator aborts,
`Flush` stops before any write; where it hands back a key `k` and a value `v`,
`Flush` writes them as a record, records the entry `(k, 0)` and writes it to
the index section, and the footer holds the size of that record. In neither
case is the output the four bytes of a footer `0`. -/
theorem Flush_empty_store :
    (Flush ⟨[], none⟩ acceptAll).outcome = .aborted ∧
    (Flush ⟨[], none⟩ acceptAll).written = [] ∧
    ∀ (k v : Bytes),
      (Flush ⟨[], some (k, v)⟩ acceptAll).sparseIndex = [⟨k, 0⟩] ∧
      (Flush ⟨[], some (k, v)⟩ acceptAll).written =
        encodeRecord (k, v) ++ encodeEntry ⟨k, 0⟩ ++ PutUint32 (recordSize (k, v)) ∧
      (Flush ⟨[], some (k, v)⟩ acceptAll).written ≠ PutUint32 0 := by
  refine ⟨by decide, by decide, ?_⟩
  intro k v
  have hrun : Flush ⟨[], some (k, v)⟩ acceptAll =
      ⟨.returned none,
        [PutUint32 k.length, k, PutUint32 v.length, v, PutUint32 k.length, k, PutUint32 0,
          PutUint32 ((8 + k.length + v.length) % wordSize)],
        [⟨k, 0⟩], (8 + k.length + v.length) % wordSize⟩ := by
    unfold Flush flushRecords
    rw [RangeScan_all]
    simp [flushLoop, loopBody_accepts_exhausted acceptAll_accepts, acceptedBody, finalEntry,
      FlushState.init, writeIndex, WriteLen_accepts acceptAll_accepts,
      Write_accepts acceptAll_accepts, uint32OfLen, PutUint32_mod, recordSize]
  rw [hrun]
  refine ⟨rfl, ?_, ?_⟩
  · simp [FlushRun.written, encodeRecord, encodeEntry, PutUint32_mod, recordSize]
  · intro h
    have := congrArg List.length h
    simp [FlushRun.written] at this

/-- C4, counterexample. On a store with records of 5000, 3500 and 10 bytes the
record loop of `Flush` records entries for the records at offsets 0 and 5000.
The rule of the spec, with the checkpoint starting at 4096 and advanced by
4096, records entries at 5000 and 8500; started at 0 it would record all
three. -/
theorem Flush_checkpoints_differ :
    (∃ st, flushRecords checkpointStore acceptAll = .ok st ∧
      st.sparseIndex = [⟨[97], 0⟩, ⟨[98], 5000⟩] ∧
      st.sparseIndex ≠ specCheckpoints blockSize 0 checkpointStore.records) ∧
    specCheckpoints blockSize 0 checkpointStore.records = [⟨[98], 5000⟩, ⟨[99], 8500⟩] ∧
    specCheckpoints 0 0 checkpointStore.records =
      [⟨[97], 0⟩, ⟨[98], 5000⟩, ⟨[99], 8500⟩] := by
  have key : ∀ v1 v2 : Bytes, v1.length = 4991 → v2.length = 3491 →
      (List.foldl acceptedBody FlushState.init
          [([97], v1), ([98], v2), ([99], [1])]).sparseIndex = [⟨[97], 0⟩, ⟨[98], 5000⟩] ∧
      specCheckpoints blockSize 0 [([97], v1), ([98], v2), ([99], [1])] =
        [⟨[98], 5000⟩, ⟨[99], 8500⟩] ∧
      specCheckpoints 0 0 [([97], v1), ([98], v2), ([99], [1])] =
        [⟨[97], 0⟩, ⟨[98], 5000⟩, ⟨[99], 8500⟩] := by
    intro v1 v2 h1 h2
    simp [acceptedBody, FlushState.init, specCheckpoints, recordSize, blockSize, wordSize,
      h1, h2]
  obtain ⟨k1, k2, k3⟩ := key (List.replicate 4991 0) (List.replicate 3491 0)
    (List.length_replicate _ _) (List.length_replicate _ _)
  refine ⟨⟨_, flushRecords_accepts acceptAll_accepts checkpointStore (List.cons_ne_nil _ _),
    k1, ?_⟩, k2, k3⟩
  show (List.foldl acceptedBody FlushState.init
    [([97], List.replicate 4991 0), ([98], List.replicate 3491 0), ([99], [1])]).sparseIndex ≠
    specCheckpoints blockSize 0
      [([97], List.replicate 4991 0), ([98], List.replicate 3491 0), ([99], [1])]
  rw [k1, k2]
  decide

/-- C4, amended. The record loop of `Flush` keeps a checkpoint that starts at
0; a record whose start offset has reached the checkpoint gets an index entry
(key, start offset), and the checkpoint is then set to that start offset plus
the block size 4096, in `uint32` arithmetic. For a store with at least one
record and a sink that accepts all writes, the loop ends with exactly the
entries of this rule. -/
theorem Flush_checkpoint_rule (db : DB) (snk : Sink) (hsnk : snk.Accepts)
    (hne : db.records ≠ []) :
    ∃ st, flushRecords db snk = .ok st ∧ st.sparseIndex = codeCheckpoints 0 0 db.records := by
  refine ⟨_, flushRecords_accepts hsnk db hne, ?_⟩
  rw [foldl_index]
  rfl

theorem Flush_checkpoint_rule_witness :
    ∃ st, flushRecords ⟨[([107], [118])], none⟩ acceptAll = .ok st ∧
      st.sparseIndex = codeCheckpoints 0 0 (DB.mk [([107], [118])] none).records :=
  Flush_checkpoint_rule ⟨[([107], [118])], none⟩ acceptAll acceptAll_accepts (by decide)

theorem Flush_single {snk : Sink} (h : snk.Accepts) (k v : Bytes) (ex : Option Record) :
    Flush ⟨[(k, v)], ex⟩ snk =
      ⟨.returned none,
        [PutUint32 k.length, k, PutUint32 v.length, v, PutUint32 k.length, k, PutUint32 0,
          PutUint32 ((8 + k.length + v.length) % wordSize)],
        [⟨k, 0⟩], (8 + k.length + v.length) % wordSize⟩ := by
  rw [Flush_accepts h _ (List.cons_ne_nil _ _)]
  simp [acceptedBody, finalEntry, FlushState.init, indexCalls, recordSize]

/-- C6, counterexample. A store whose single record has a key of `2 ^ 32 - 8`
bytes and an empty value serializes to `2 ^ 32` bytes; the footer offset
`Flush` computes is 0, not the size of the record. -/
theorem Flush_single_record_wraps :
    (Flush ⟨[(List.replicate 4294967288 0, [])], none⟩ acceptAll).sparseIndexOffset = 0 ∧
    (Flush ⟨[(List.replicate 4294967288 0, [])], none⟩ acceptAll).sparseIndexOffset ≠
      8 + (List.replicate 4294967288 (0 : Byte)).length + ([] : Bytes).length := by
  have key : ∀ k : Bytes, k.length = 4294967288 →
      (Flush ⟨[(k, [])], none⟩ acceptAll).sparseIndexOffset = 0 ∧
      (Flush ⟨[(k, [])], none⟩ acceptAll).sparseIndexOffset ≠
        8 + k.length + ([] : Bytes).length := by
    intro k hk
    rw [Flush_single acceptAll_accepts]
    simp only [hk, List.length_nil, wordSize]
    constructor <;> norm_num
  exact key _ (List.length_replicate _ _)

/-- C6, amended. For a store with exactly one record `(k, v)` whose
serialization `8 + len k + len v` is shorter than `2 ^ 32` bytes, and a sink
that accepts all writes, `Flush` returns no error, records exactly one index
entry, `(k, 0)`, and the footer offset is `8 + len k + len v`, the size of the
serialized record; the footer written decodes to that offset. -/
theorem Flush_single_record (db : DB) (snk : Sink) (k v : Bytes) (hsnk : snk.Accepts)
    (hrec : db.records = [(k, v)]) (hsize : 8 + k.length + v.length < wordSize) :
    (Flush db snk).outcome = .returned none ∧
    (Flush db snk).sparseIndex = [⟨k, 0⟩] ∧
    (Flush db snk).sparseIndexOffset = 8 + k.length + v.length ∧
    (Flush db snk).written =
      encodeRecord (k, v) ++ encodeEntry ⟨k, 0⟩ ++ PutUint32 (8 + k.length + v.length) ∧
    Uint32 ((Flush db snk).written.drop ((Flush db snk).written.length - 4)) =
      8 + k.length + v.length := by
  obtain ⟨recs, ex⟩ := db
  simp only at hrec
  subst hrec
  rw [Flush_single hsnk, Nat.mod_eq_of_lt hsize]
  refine ⟨rfl, rfl, rfl, ?_, ?_⟩
  · simp [FlushRun.written, encodeRecord, encodeEntry]
  · have h4 : ∀ (a b : Bytes), b.length = 4 → (a ++ b).drop ((a ++ b).length - 4) = b := by
      intro a b hb
      rw [List.length_append, hb, Nat.add_sub_cancel, List.drop_left]
    have hw : (FlushRun.mk (.returned none)
        [PutUint32 k.length, k, PutUint32 v.length, v, PutUint32 k.length, k, PutUint32 0,
          PutUint32 (8 + k.length + v.length)] [⟨k, 0⟩] (8 + k.length + v.length)).written =
        (PutUint32 k.length ++ k ++ PutUint32 v.length ++ v ++ PutUint32 k.length ++ k ++
          PutUint32 0) ++ PutUint32 (8 + k.length + v.length) := by
      simp [FlushRun.written]
    rw [hw, h4 _ _ (PutUint32_length _), Uint32_PutUint32, Nat.mod_eq_of_lt hsize]

theorem Flush_single_record_witness :
    (Flush ⟨[([107], [118])], none⟩ acceptAll).outcome = .returned none ∧
    (Flush ⟨[([107], [118])], none⟩ acceptAll).sparseIndex = [⟨[107], 0⟩] ∧
    (Flush ⟨[([107], [118])], none⟩ acceptAll).sparseIndexOffset = 10 ∧
    (Flush ⟨[([107], [118])], none⟩ acceptAll).written =
      encodeRecord ([107], [118]) ++ encodeEntry ⟨[107], 0⟩ ++ PutUint32 10 ∧
    Uint32 ((Flush ⟨[([107], [118])], none⟩ acceptAll).written.drop
      ((Flush ⟨[([107], [118])], none⟩ acceptAll).written.length - 4)) = 10 :=
  Flush_single_record ⟨[([107], [118])], none⟩ acceptAll [107] [118] acceptAll_accepts rfl
    (by decide)

theorem codeCheckpoints_keys (recs : List Record) (cp off : Nat)
    (h : off + dataSize recs < wordSize) (e : sparseIndexEntry)
    (he : e ∈ codeCheckpoints cp off recs) : e.key ∈ recs.map Prod.fst := by
  have h1 := (codeCheckpoints_sublist recs cp off h).subset he
  have h2 : e.key ∈ (recordStarts off recs).map sparseIndexEntry.key :=
    List.mem_map_of_mem _ h1
  rwa [recordStarts_keys] at h2

/-- C5. For a store with at least one record, unique keys and a data section
shorter than `2 ^ 32` bytes, and a sink that accepts all writes: the index
`Flush` records is not empty and its last entry is the key of the last record
with the offset that record starts at; the entry recorded last inside the loop
decides the final-entry rule, which appends that entry when the keys differ
and appends nothing when they agree; and the key of the last record occurs
exactly once in the index. -/
theorem Flush_final_entry (db : DB) (snk : Sink) (hsnk : snk.Accepts)
    (hne : db.records ≠ []) (huniq : (db.records.map Prod.fst).Nodup)
    (hsize : (dataSection db.records).length < wordSize) :
    (Flush db snk).sparseIndex ≠ [] ∧
    (Flush db snk).sparseIndex.getLast? =
      some ⟨(db.records.getLast hne).1, (dataSection db.records.dropLast).length⟩ ∧
    (∃ st e, flushRecords db snk = .ok st ∧ st.sparseIndex.getLast? = some e ∧
      (e.key ≠ (db.records.getLast hne).1 →
        (Flush db snk).sparseIndex = st.sparseIndex ++
          [⟨(db.records.getLast hne).1, (dataSection db.records.dropLast).length⟩]) ∧
      (e.key = (db.records.getLast hne).1 → (Flush db snk).sparseIndex = st.sparseIndex)) ∧
    ((Flush db snk).sparseIndex.map sparseIndexEntry.key).count (db.records.getLast hne).1 = 1 := by
  rw [dataSection_length] at hsize
  obtain ⟨recs, ex⟩ := db
  simp only at hne huniq hsize ⊢
  obtain ⟨init, r, hrec⟩ : ∃ init r, recs = init ++ [r] :=
    ⟨recs.dropLast, recs.getLast hne, (List.dropLast_append_getLast hne).symm⟩
  subst hrec
  rw [dataSize_append] at hsize
  have hinit : dataSize init < wordSize := by omega
  have hrun := flushRecords_accepts hsnk ⟨init ++ [r], ex⟩ hne
  have hidx : (Flush ⟨init ++ [r], ex⟩ snk).sparseIndex =
      (finalEntry (acceptedBody (init.foldl acceptedBody FlushState.init) r)).sparseIndex := by
    rw [Flush_accepts hsnk _ hne]
    simp only [List.foldl_append, List.foldl_cons, List.foldl_nil]
  simp only [List.foldl_append, List.foldl_cons, List.foldl_nil] at hrun
  rw [hidx, hrun, finalEntry_acceptedBody]
  simp only [List.getLast_append_singleton, List.dropLast_concat, dataSection_length]
  generalize hS : init.foldl acceptedBody FlushState.init = S at *
  -- the keys recorded so far are keys of earlier records
  have hkeys : ∀ e ∈ S.sparseIndex, e.key ∈ init.map Prod.fst := by
    intro e he
    rw [← hS, foldl_index] at he
    simp only [FlushState.init, List.nil_append] at he
    exact codeCheckpoints_keys init 0 0 (by omega) e he
  have hfresh : r.1 ∉ init.map Prod.fst := by
    rw [List.map_append, List.nodup_append] at huniq
    intro hmem
    exact huniq.2.2 hmem (by simp)
  have hoff : S.writer.Offset = dataSize init := by
    rw [← hS]; exact foldl_init_offset init hinit
  have hlast : ¬ S.nextCheckpoint ≤ S.writer.Offset → LastKeyRecorded S := by
    intro hc
    rw [← hS]
    apply foldl_init_lastKey
    intro hnil
    apply hc
    rw [← hS, hnil]
    exact init_checkpoint
  have hcond : S.nextCheckpoint ≤ S.writer.Offset ∨ r.1 ≠ S.finalKey := by
    by_cases hc : S.nextCheckpoint ≤ S.writer.Offset
    · exact Or.inl hc
    · right
      obtain ⟨e, he, hk⟩ := hlast hc
      intro heq
      apply hfresh
      rw [heq, ← hk]
      exact hkeys e (List.mem_of_getLast?_eq_some he)
  rw [if_pos hcond, hoff]
  refine ⟨by simp, by simp, ?_, ?_⟩
  · by_cases hc : S.nextCheckpoint ≤ S.writer.Offset
    · refine ⟨_, ⟨r.1, S.writer.Offset⟩, rfl, ?_, ?_, ?_⟩
      · simp [acceptedBody, hc]
      · intro hcontra; exact absurd rfl hcontra
      · intro _; simp [acceptedBody, hc, hoff, hoff ▸ hc]
    · obtain ⟨e, he, hk⟩ := hlast hc
      refine ⟨_, e, rfl, ?_, ?_, ?_⟩
      · simp [acceptedBody, hc, he]
      · intro _; simp [acceptedBody, hc]
      · intro heq
        exfalso
        apply hfresh
        rw [← heq]
        exact hkeys e (List.mem_of_getLast?_eq_some he)
  · rw [List.map_append, List.count_append]
    have h0 : List.count r.1 (S.sparseIndex.map sparseIndexEntry.key) = 0 := by
      rw [List.count_eq_zero]
      intro hmem
      obtain ⟨e, he, hk⟩ := List.mem_map.mp hmem
      apply hfresh
      rw [← hk]
      exact hkeys e he
    rw [h0]
    simp

theorem Flush_final_entry_witness :
    (Flush ⟨[([97], [1]), ([98], [2])], none⟩ acceptAll).sparseIndex ≠ [] ∧
    (Flush ⟨[([97], [1]), ([98], [2])], none⟩ acceptAll).sparseIndex.getLast? =
      some ⟨((DB.mk [([97], [1]), ([98], [2])] none).records.getLast (by decide)).1,
        (dataSection (DB.mk [([97], [1]), ([98], [2])] none).records.dropLast).length⟩ ∧
    (∃ st e, flushRecords ⟨[([97], [1]), ([98], [2])], none⟩ acceptAll = .ok st ∧
      st.sparseIndex.getLast? = some e ∧
      (e.key ≠ ((DB.mk [([97], [1]), ([98], [2])] none).records.getLast (by decide)).1 →
        (Flush ⟨[([97], [1]), ([98], [2])], none⟩ acceptAll).sparseIndex = st.sparseIndex ++
          [⟨((DB.mk [([97], [1]), ([98], [2])] none).records.getLast (by decide)).1,
            (dataSection (DB.mk [([97], [1]), ([98], [2])] none).records.dropLast).length⟩]) ∧
      (e.key = ((DB.mk [([97], [1]), ([98], [2])] none).records.getLast (by decide)).1 →
        (Flush ⟨[([97], [1]), ([98], [2])], none⟩ acceptAll).sparseIndex = st.sparseIndex)) ∧
    ((Flush ⟨[([97], [1]), ([98], [2])], none⟩ acceptAll).sparseIndex.map
      sparseIndexEntry.key).count
        ((DB.mk [([97], [1]), ([98], [2])] none).records.getLast (by decide)).1 = 1 :=
  Flush_final_entry ⟨[([97], [1]), ([98], [2])], none⟩ acceptAll acceptAll_accepts
    (by decide) (by decide) (by decide)

theorem AllAccepted_nil (snk : Sink) : AllAccepted snk [] := by
  intro pre b post h
  simp at h

theorem AllAccepted_concat {snk : Sink} {pre : List Bytes} {b : Bytes}
    (h : AllAccepted snk pre) (hb : (snk.Write pre b).2 = none) :
    AllAccepted snk (pre ++ [b]) := by
  intro p x post heq
  rcases List.eq_nil_or_concat post with hpost | ⟨q, y, hpost⟩
  · subst hpost
    obtain ⟨h1, h2⟩ := List.append_inj' heq rfl
    simp only [List.cons.injEq, and_true] at h2
    rw [← h1, ← h2]
    exact hb
  · subst hpost
    have heq2 : pre ++ [b] = (p ++ x :: q) ++ [y] := by simpa using heq
    obtain ⟨h1, _⟩ := List.append_inj' heq2 rfl
    exact h p x q h1

theorem FailedLast_not_accepted {snk : Sink} {calls : List Bytes} {c : SinkFailure}
    (h : FailedLast snk calls c) : ¬ AllAccepted snk calls := by
  obtain ⟨pre, b, hcalls, _, hb⟩ := h
  intro hall
  have := hall pre b [] hcalls
  rw [hb] at this
  exact absurd this (by simp)

theorem Write_traced {snk : Sink} {w w1 : simpleWriter} {c : Option SinkFailure}
    (h : AllAccepted snk w.Writer) {b : Bytes} (hres : w.Write snk b = (w1, c)) :
    Traced snk w1 c := by
  unfold simpleWriter.Write at hres
  simp only at hres
  cases hr : (snk.Write w.Writer b).2 with
  | none =>
    rw [hr] at hres
    simp only [Prod.mk.injEq] at hres
    obtain ⟨rfl, rfl⟩ := hres
    exact AllAccepted_concat h hr
  | some e =>
    rw [hr] at hres
    simp only [Prod.mk.injEq] at hres
    obtain ⟨rfl, rfl⟩ := hres
    exact ⟨w.Writer, b, rfl, h, hr⟩

theorem WriteLen_traced {snk : Sink} {w w1 : simpleWriter} {c : Option SinkFailure}
    (h : AllAccepted snk w.Writer) {n : Nat} (hres : w.WriteLen snk n = (w1, c)) :
    Traced snk w1 c :=
  Write_traced h hres

theorem writeRecord_traced {snk : Sink} {w w1 : simpleWriter} {c : Option FlushError}
    (h : AllAccepted snk w.Writer) {k v : Bytes} (hres : writeRecord snk w k v = (w1, c)) :
    Traced snk w1 (c.map FlushError.cause) := by
  unfold writeRecord at hres
  rcases hr1 : w.WriteLen snk (uint32OfLen k) with ⟨x1, _ | e1⟩ <;> rw [hr1] at hres <;>
    simp only at hres
  swap
  · simp only [Prod.mk.injEq] at hres
    obtain ⟨rfl, rfl⟩ := hres
    exact WriteLen_traced h hr1
  have h1 : AllAccepted snk x1.Writer := WriteLen_traced h hr1
  rcases hr2 : x1.Write snk k with ⟨x2, _ | e2⟩ <;> rw [hr2] at hres <;> simp only at hres
  swap
  · simp only [Prod.mk.injEq] at hres
    obtain ⟨rfl, rfl⟩ := hres
    exact Write_traced h1 hr2
  have h2 : AllAccepted snk x2.Writer := Write_traced h1 hr2
  rcases hr3 : x2.WriteLen snk (uint32OfLen v) with ⟨x3, _ | e3⟩ <;> rw [hr3] at hres <;>
    simp only at hres
  swap
  · simp only [Prod.mk.injEq] at hres
    obtain ⟨rfl, rfl⟩ := hres
    exact WriteLen_traced h2 hr3
  have h3 : AllAccepted snk x3.Writer := WriteLen_traced h2 hr3
  rcases hr4 : x3.Write snk v with ⟨x4, _ | e4⟩ <;> rw [hr4] at hres <;> simp only at hres <;>
    simp only [Prod.mk.injEq] at hres <;> obtain ⟨rfl, rfl⟩ := hres <;>
    exact Write_traced h3 hr4

theorem writeIndex_traced {snk : Sink} : ∀ (idx : List sparseIndexEntry)
    (w w1 : simpleWriter) (c : Option FlushError),
    AllAccepted snk w.Writer → writeIndex snk idx w = (w1, c) →
      Traced snk w1 (c.map FlushError.cause)
  | [], w, w1, c, h, hres => by
    simp only [writeIndex, Prod.mk.injEq] at hres
    obtain ⟨rfl, rfl⟩ := hres
    exact h
  | e :: rest, w, w1, c, h, hres => by
    unfold writeIndex at hres
    rcases hr1 : w.WriteLen snk (uint32OfLen e.key) with ⟨x1, _ | e1⟩ <;> rw [hr1] at hres <;>
      simp only at hres
    swap
    · simp only [Prod.mk.injEq] at hres
      obtain ⟨rfl, rfl⟩ := hres
      exact WriteLen_traced h hr1
    have h1 : AllAccepted snk x1.Writer := WriteLen_traced h hr1
    rcases hr2 : x1.Write snk e.key with ⟨x2, _ | e2⟩ <;> rw [hr2] at hres <;>
      simp only at hres
    swap
    · simp only [Prod.mk.injEq] at hres
      obtain ⟨rfl, rfl⟩ := hres
      exact Write_traced h1 hr2
    have h2 : AllAccepted snk x2.Writer := Write_traced h1 hr2
    rcases hr3 : x2.WriteLen snk e.offset with ⟨x3, _ | e3⟩ <;> rw [hr3] at hres <;>
      simp only at hres
    swap
    · simp only [Prod.mk.injEq] at hres
      obtain ⟨rfl, rfl⟩ := hres
      exact WriteLen_traced h2 hr3
    have h3 : AllAccepted snk x3.Writer := WriteLen_traced h2 hr3
    exact writeIndex_traced rest x3 w1 c h3 hres

theorem loopBody_traced {snk : Sink} (recs : List Record) (ex : Option Record)
    (st : FlushState) (h : AllAccepted snk st.writer.Writer) :
    StepTraced snk recs ex (loopBody snk ⟨recs, ex⟩ st) := by
  unfold loopBody
  rcases hk : (RangeIterator.mk recs ex).Key with _ | key
  · have : recs = [] ∧ ex = none := by
      cases recs with
      | nil => cases ex <;> simp [RangeIterator.Key] at hk ⊢
      | cons r rest => simp [RangeIterator.Key] at hk
    simp only
    exact ⟨h, this.1, this.2⟩
  rcases hv : (RangeIterator.mk recs ex).Value with _ | value
  · have : recs = [] ∧ ex = none := by
      cases recs with
      | nil => cases ex <;> simp [RangeIterator.Value] at hv ⊢
      | cons r rest => simp [RangeIterator.Value] at hv
    simp only
    exact ⟨h, this.1, this.2⟩
  simp only
  split_ifs with hc
  · rcases hr : writeRecord snk st.writer key value with ⟨w, _ | e⟩
    · exact writeRecord_traced h hr
    · exact writeRecord_traced h hr
  · rcases hr : writeRecord snk st.writer key value with ⟨w, _ | e⟩
    · exact writeRecord_traced h hr
    · exact writeRecord_traced h hr

theorem flushLoop_traced {snk : Sink} (ex : Option Record) :
    ∀ (recs : List Record) (st : FlushState), AllAccepted snk st.writer.Writer →
      StepTraced snk recs ex (flushLoop snk ex recs st)
  | [], st, h => by
    rw [flushLoop]
    exact loopBody_traced [] ex st h
  | r :: rest, st, h => by
    rw [flushLoop]
    have hb := loopBody_traced (r :: rest) ex st h
    rcases hr : loopBody snk ⟨r :: rest, ex⟩ st with st1 | ⟨st1, err⟩ | st1
    · rw [hr] at hb
      simp only
      split_ifs with hn
      · have hrec := flushLoop_traced ex rest st1 hb
        rcases hr2 : flushLoop snk ex rest st1 with st2 | ⟨st2, err⟩ | st2
        · rw [hr2] at hrec; exact hrec
        · rw [hr2] at hrec; exact hrec
        · rw [hr2] at hrec
          obtain ⟨_, hnil, _⟩ := hrec
          subst hnil
          simp [RangeIterator.Next] at hn
      · exact hb
    · rw [hr] at hb; exact hb
    · rw [hr] at hb
      exact absurd hb.2.1 (List.cons_ne_nil _ _)

theorem flushLoop_aborted {snk : Sink} (ex : Option Record) (st st1 : FlushState)
    (h : flushLoop snk ex [] st = .aborted st1) : st1 = st := by
  rw [flushLoop] at h
  unfold loopBody at h
  cases ex with
  | none => simpa [RangeIterator.Key, RangeIterator.Value] using h.symm
  | some kv =>
    simp only [RangeIterator.Key, RangeIterator.Value, Option.map] at h
    split at h <;> simp at h

/-- Error propagation of `Flush`, for every store and every sink: `Flush`
returns an error exactly when a write to the sink was answered with an error.
In that case the failed write is the last call the sink received, every call
before it was accepted, and the error returned carries the error of the sink.
When `Flush` returns nil every write was accepted. The one run that does not
return is the abort at the undefined read of an exhausted iterator, on a store
without records and before any write. -/
theorem Flush_error_propagation (db : DB) (snk : Sink) :
    ((∃ err, (Flush db snk).outcome = .returned (some err)) ↔
      ¬ AllAccepted snk (Flush db snk).calls) ∧
    (match (Flush db snk).outcome with
      | .returned none => AllAccepted snk (Flush db snk).calls
      | .returned (some err) => FailedLast snk (Flush db snk).calls err.cause
      | .aborted =>
        (Flush db snk).calls = [] ∧ db.records = [] ∧ db.exhaustedRead = none) := by
  have main : match (Flush db snk).outcome with
      | .returned none => AllAccepted snk (Flush db snk).calls
      | .returned (some err) => FailedLast snk (Flush db snk).calls err.cause
      | .aborted =>
        (Flush db snk).calls = [] ∧ db.records = [] ∧ db.exhaustedRead = none := by
    unfold Flush flushRecords
    rw [RangeScan_all]
    have hloop := @flushLoop_traced snk db.exhaustedRead db.records FlushState.init
      (AllAccepted_nil snk)
    rcases hr : flushLoop snk db.exhaustedRead db.records FlushState.init with
      st | ⟨st, err⟩ | st
    · rw [hr] at hloop
      simp only
      have hfin : AllAccepted snk (finalEntry st).writer.Writer := by
        unfold finalEntry; split_ifs <;> exact hloop
      rcases hw : writeIndex snk (finalEntry st).sparseIndex (finalEntry st).writer with
        ⟨w, _ | e⟩
      · have h1 : AllAccepted snk w.Writer := writeIndex_traced _ _ _ _ hfin hw
        simp only
        rcases hf : w.WriteLen snk (finalEntry st).writer.Offset with ⟨w1, _ | e⟩
        · exact WriteLen_traced h1 hf
        · exact WriteLen_traced h1 hf
      · exact writeIndex_traced _ _ _ _ hfin hw
    · rw [hr] at hloop; exact hloop
    · rw [hr] at hloop
      obtain ⟨_, hnil, hex⟩ := hloop
      rw [hnil] at hr
      have := flushLoop_aborted _ _ _ hr
      subst this
      exact ⟨rfl, hnil, hex⟩
  refine ⟨?_, main⟩
  rcases ho : (Flush db snk).outcome with (_ | err) | _ <;> rw [ho] at main
  · simpa using main
  · simpa using FailedLast_not_accepted main
  · simp only [reduceCtorEq, exists_false, false_iff, not_not]
    rw [main.1]
    exact AllAccepted_nil snk

theorem Uint32_lt (b : Bytes) : Uint32 b < wordSize := by
  unfold Uint32 wordSize
  split
  · rename_i b0 b1 b2 b3
    have h0 := b0.isLt
    have h1 := b1.isLt
    have h2 := b2.isLt
    have h3 := b3.isLt
    omega
  · decide

theorem PutUint32_Uint32 (b : Bytes) (h : b.length = 4) : PutUint32 (Uint32 b) = b := by
  match b, h with
  | [b0, b1, b2, b3], _ =>
    have h0 := b0.isLt
    have h1 := b1.isLt
    have h2 := b2.isLt
    have h3 := b3.isLt
    simp only [Uint32, PutUint32, toByte, List.cons.injEq, and_true]
    refine ⟨?_, ?_, ?_, ?_⟩ <;> apply Fin.ext <;> simp only <;> omega

theorem remaining_length (stor : Bytes) (s : SectionReader) (h : s.limit ≤ stor.length) :
    (s.remaining stor).length = s.limit - s.off := by
  unfold SectionReader.remaining
  rw [List.length_take, List.length_drop]
  omega

theorem remaining_drop (stor : Bytes) (off limit k : Nat) :
    (SectionReader.remaining stor ⟨off, limit⟩).drop k =
      SectionReader.remaining stor ⟨off + k, limit⟩ := by
  unfold SectionReader.remaining
  simp only
  rw [List.drop_take, List.drop_drop, Nat.sub_sub]

theorem remaining_take (stor : Bytes) (off limit k : Nat) :
    (SectionReader.remaining stor ⟨off, limit⟩).take k =
      (stor.drop off).take (min k (limit - off)) := by
  unfold SectionReader.remaining
  simp only
  rw [List.take_take]

theorem ReadUint32_remaining (stor : Bytes) (off limit : Nat) :
    ReadUint32 stor ⟨off, limit⟩ =
      (⟨off + ((SectionReader.remaining stor ⟨off, limit⟩).take 4).length, limit⟩,
        if ((SectionReader.remaining stor ⟨off, limit⟩).take 4).length = 4 then
          .ok (Uint32 ((SectionReader.remaining stor ⟨off, limit⟩).take 4))
        else if ((SectionReader.remaining stor ⟨off, limit⟩).take 4).length = 0 then
          .error .EOF
        else .error .ErrUnexpectedEOF) := by
  unfold ReadUint32
  simp only [remaining_take]
  split_ifs <;> rfl

theorem Read_remaining (stor : Bytes) (off limit n : Nat) (h : limit ≤ stor.length)
    (hoff : off < limit) :
    SectionReader.Read stor ⟨off, limit⟩ n =
      (⟨off + min n (limit - off), limit⟩,
        (SectionReader.remaining stor ⟨off, limit⟩).take n, none) := by
  unfold SectionReader.Read ReadAt
  simp only [if_neg (Nat.not_le.mpr hoff), remaining_take]
  have hmin : (if limit - off < n then limit - off else n) = min n (limit - off) := by
    split_ifs <;> omega
  rw [hmin]
  have hlen : ((stor.drop off).take (min n (limit - off))).length = min n (limit - off) := by
    rw [List.length_take, List.length_drop]; omega
  simp [hlen]

theorem openLoop_eq_parseIndex (stor : Bytes) (limit : Nat) (hlimit : limit ≤ stor.length) :
    ∀ (fuel off : Nat) (idx : List sparseIndexEntry), off ≤ limit →
      openLoop stor fuel ⟨off, limit⟩ idx =
        parseIndex fuel (SectionReader.remaining stor ⟨off, limit⟩) idx := by
  intro fuel
  induction fuel with
  | zero => intro off idx _; rfl
  | succ fuel ih =>
    intro off idx hoff
    have hlen := remaining_length stor ⟨off, limit⟩ hlimit
    simp only at hlen
    rw [openLoop, parseIndex, ReadUint32_remaining]
    have htake : ((SectionReader.remaining stor ⟨off, limit⟩).take 4).length =
        min 4 (limit - off) := by rw [List.length_take, hlen]
    by_cases h0 : limit - off = 0
    · have hnil : SectionReader.remaining stor ⟨off, limit⟩ = [] :=
        List.eq_nil_of_length_eq_zero (by rw [hlen, h0])
      simp [hnil]
    have hne : SectionReader.remaining stor ⟨off, limit⟩ ≠ [] := by
      intro hnil; rw [hnil] at hlen; simp at hlen; omega
    by_cases h4 : limit - off < 4
    · have : ¬ min 4 (limit - off) = 4 := by omega
      have : ¬ min 4 (limit - off) = 0 := by omega
      simp [hne, hlen, h4, htake, *]
    have hm : min 4 (limit - off) = 4 := by omega
    simp only [htake, hm, if_true, if_neg hne, hlen, if_neg h4, remaining_drop]
    have hlen1 := remaining_length stor ⟨off + 4, limit⟩ hlimit
    simp only at hlen1
    by_cases h1 : limit ≤ off + 4
    · have hnil : SectionReader.remaining stor ⟨off + 4, limit⟩ = [] :=
        List.eq_nil_of_length_eq_zero (by rw [hlen1]; omega)
      simp [hnil, SectionReader.Read, h1]
    have hne1 : SectionReader.remaining stor ⟨off + 4, limit⟩ ≠ [] := by
      intro hnil; rw [hnil] at hlen1; simp at hlen1; omega
    rw [Read_remaining stor (off + 4) limit _ hlimit (by omega)]
    simp only [if_neg hne1]
    generalize hkl : Uint32 ((SectionReader.remaining stor ⟨off, limit⟩).take 4) = keyLength
    rw [ReadUint32_remaining]
    have hrd : SectionReader.remaining stor ⟨off + 4 + min keyLength (limit - (off + 4)), limit⟩
        = SectionReader.remaining stor ⟨off + 4 + keyLength, limit⟩ := by
      by_cases hk : keyLength ≤ limit - (off + 4)
      · rw [Nat.min_eq_left hk]
      · have e1 := remaining_length stor ⟨off + 4 + min keyLength (limit - (off + 4)), limit⟩
          hlimit
        have e2 := remaining_length stor ⟨off + 4 + keyLength, limit⟩ hlimit
        simp only at e1 e2
        rw [List.eq_nil_of_length_eq_zero (l := SectionReader.remaining stor
            ⟨off + 4 + min keyLength (limit - (off + 4)), limit⟩) (by rw [e1]; omega),
          List.eq_nil_of_length_eq_zero (l := SectionReader.remaining stor
            ⟨off + 4 + keyLength, limit⟩) (by rw [e2]; omega)]
    rw [hrd]
    have hlen2 := remaining_length stor ⟨off + 4 + keyLength, limit⟩ hlimit
    simp only at hlen2
    have htake2 : ((SectionReader.remaining stor ⟨off + 4 + keyLength, limit⟩).take 4).length =
        min 4 (limit - (off + 4 + keyLength)) := by rw [List.length_take, hlen2]
    by_cases h20 : limit - (off + 4 + keyLength) = 0
    · have hnil : SectionReader.remaining stor ⟨off + 4 + keyLength, limit⟩ = [] :=
        List.eq_nil_of_length_eq_zero (by rw [hlen2, h20])
      simp [hnil]
    have hne2 : SectionReader.remaining stor ⟨off + 4 + keyLength, limit⟩ ≠ [] := by
      intro hnil; rw [hnil] at hlen2; simp at hlen2; omega
    by_cases h24 : limit - (off + 4 + keyLength) < 4
    · have : ¬ min 4 (limit - (off + 4 + keyLength)) = 4 := by omega
      have : ¬ min 4 (limit - (off + 4 + keyLength)) = 0 := by omega
      simp [hne2, hlen2, h24, htake2, *]
    have hm2 : min 4 (limit - (off + 4 + keyLength)) = 4 := by omega
    have hk : min keyLength (limit - (off + 4)) = keyLength := by omega
    simp only [htake2, hm2, if_true, if_neg hne2, hlen2, if_neg h24, remaining_drop, hk]
    exact ih _ _ (by omega)

theorem indexSection_cons (e : sparseIndexEntry) (es : List sparseIndexEntry) :
    indexSection (e :: es) =
      PutUint32 e.key.length ++ (e.key ++ (PutUint32 e.offset ++ indexSection es)) := by
  simp [indexSection, encodeEntry]

theorem parseIndex_complete : ∀ (es : List sparseIndexEntry) (fuel : Nat)
    (idx : List sparseIndexEntry), (∀ e ∈ es, e.Fits) → es.length < fuel →
      parseIndex fuel (indexSection es) idx = some (.ok (idx ++ es))
  | [], fuel + 1, idx, _, _ => by simp [parseIndex, indexSection]
  | e :: es, fuel + 1, idx, hfit, hfuel => by
    have he := hfit e (List.mem_cons_self _ _)
    have hrest : ∀ x ∈ es, x.Fits := fun x hx => hfit x (List.mem_cons_of_mem _ hx)
    have ih := parseIndex_complete es fuel (idx ++ [e]) hrest
      (by simp only [List.length_cons] at hfuel; omega)
    rw [parseIndex, indexSection_cons]
    have hP : ∀ (n : Nat) (t : Bytes), (PutUint32 n ++ t).take 4 = PutUint32 n := by
      intro n t; rw [List.take_left' (PutUint32_length n)]
    have hD : ∀ (n : Nat) (t : Bytes), (PutUint32 n ++ t).drop 4 = t := by
      intro n t; rw [List.drop_left' (PutUint32_length n)]
    have hne : ∀ (n : Nat) (t : Bytes), PutUint32 n ++ t ≠ [] := by
      intro n t h
      have := congrArg List.length h
      simp at this
    have hlen : ∀ (n : Nat) (t : Bytes), ¬ (PutUint32 n ++ t).length < 4 := by
      intro n t; simp
    have hk : Uint32 (PutUint32 e.key.length) = e.key.length := by
      rw [Uint32_PutUint32, Nat.mod_eq_of_lt he.1]
    have ho : Uint32 (PutUint32 e.offset) = e.offset := by
      rw [Uint32_PutUint32, Nat.mod_eq_of_lt he.2]
    have hne1 : e.key ++ (PutUint32 e.offset ++ indexSection es) ≠ [] := by
      intro h
      have := congrArg List.length h
      simp at this
    simp only [if_neg (hne _ _), if_neg (hlen _ _), hP, hD, hk, if_neg hne1,
      List.take_left, List.drop_left, List.length_take, ho, Nat.sub_self, List.replicate_zero,
      List.append_nil]
    rw [ih]
    simp

theorem parseIndex_sound : ∀ (fuel : Nat) (rem : Bytes) (idx res : List sparseIndexEntry),
    parseIndex fuel rem idx = some (.ok res) →
      ∃ es, res = idx ++ es ∧ (∀ e ∈ es, e.Fits) ∧ rem = indexSection es := by
  intro fuel
  induction fuel with
  | zero => intro rem idx res h; simp [parseIndex] at h
  | succ fuel ih =>
    intro rem idx res h
    rw [parseIndex] at h
    by_cases h0 : rem = []
    · simp only [h0, if_true, Option.some.injEq, Except.ok.injEq] at h
      exact ⟨[], by simp [h], by simp, by simp [h0, indexSection]⟩
    rw [if_neg h0] at h
    by_cases h4 : rem.length < 4
    · simp [h4] at h
    rw [if_neg h4] at h
    simp only at h
    by_cases h1 : rem.drop 4 = []
    · simp [h1] at h
    rw [if_neg h1] at h
    by_cases h2 : (rem.drop 4).drop (Uint32 (rem.take 4)) = []
    · simp [h2] at h
    rw [if_neg h2] at h
    by_cases h24 : ((rem.drop 4).drop (Uint32 (rem.take 4))).length < 4
    · rw [if_pos h24] at h
      simp at h
    rw [if_neg h24] at h
    obtain ⟨es, hres, hfit, hrem⟩ := ih _ _ _ h
    have hklen : Uint32 (rem.take 4) < (rem.drop 4).length := by
      have := List.length_pos_of_ne_nil h2
      rw [List.length_drop] at this
      omega
    have hgot : ((rem.drop 4).take (Uint32 (rem.take 4))).length = Uint32 (rem.take 4) := by
      rw [List.length_take]; omega
    have hkey : (rem.drop 4).take (Uint32 (rem.take 4)) ++
        List.replicate (Uint32 (rem.take 4) -
          ((rem.drop 4).take (Uint32 (rem.take 4))).length) (0 : Byte) =
        (rem.drop 4).take (Uint32 (rem.take 4)) := by
      rw [hgot, Nat.sub_self]; simp
    rw [hkey] at hres
    have ht4 : (rem.take 4).length = 4 := by rw [List.length_take]; omega
    have ht24 : (((rem.drop 4).drop (Uint32 (rem.take 4))).take 4).length = 4 := by
      rw [List.length_take]; omega
    refine ⟨⟨(rem.drop 4).take (Uint32 (rem.take 4)),
      Uint32 (((rem.drop 4).drop (Uint32 (rem.take 4))).take 4)⟩ :: es, ?_, ?_, ?_⟩
    · rw [hres]; simp
    · intro e he
      rcases List.mem_cons.mp he with rfl | he
      · exact ⟨by simp only [hgot]; exact Uint32_lt _, Uint32_lt _⟩
      · exact hfit e he
    · rw [indexSection_cons]
      simp only [hgot, PutUint32_Uint32 _ ht4, PutUint32_Uint32 _ ht24, ← hrem]
      rw [List.take_append_drop, List.take_append_drop, List.take_append_drop]

theorem parseIndex_returns : ∀ (fuel : Nat) (rem : Bytes) (idx : List sparseIndexEntry),
    rem.length < fuel → parseIndex fuel rem idx ≠ none := by
  intro fuel
  induction fuel with
  | zero => intro rem idx h; omega
  | succ fuel ih =>
    intro rem idx h
    rw [parseIndex]
    by_cases h0 : rem = []
    · rw [if_pos h0]; simp
    rw [if_neg h0]
    by_cases h4 : rem.length < 4
    · rw [if_pos h4]; simp
    rw [if_neg h4]
    simp only
    by_cases h1 : rem.drop 4 = []
    · rw [if_pos h1]; simp
    rw [if_neg h1]
    by_cases h2 : (rem.drop 4).drop (Uint32 (rem.take 4)) = []
    · rw [if_pos h2]; simp
    rw [if_neg h2]
    by_cases h24 : ((rem.drop 4).drop (Uint32 (rem.take 4))).length < 4
    · rw [if_pos h24]; simp
    rw [if_neg h24]
    apply ih
    simp only [List.length_drop]
    omega

theorem Open_eq (stor : Bytes) (h : 4 ≤ stor.length) :
    Open stor =
      if indexEnd stor < indexStart stor then some (.error .indexStartPastEnd)
      else if indexStart stor = indexEnd stor then some (.ok ⟨stor, []⟩)
      else
        match parseIndex stor.length (indexBytes stor) [] with
        | none => none
        | some (.error err) => some (.error err)
        | some (.ok sparseIndex) => some (.ok ⟨stor, sparseIndex⟩) := by
  have hseek : Seek stor (-4) .SeekEnd = some ((stor.length - 4 : Nat) : Int) := by
    unfold Seek
    simp only
    rw [if_neg (by omega)]
    congr 1
    omega
  have hlast : ((stor.drop (stor.length - 4)).take (min 4 (stor.length - (stor.length - 4)))) =
      stor.drop (stor.length - 4) := by
    apply List.take_of_length_le
    rw [List.length_drop]
    omega
  have hlen4 : (stor.drop (stor.length - 4)).length = 4 := by
    rw [List.length_drop]; omega
  have hread : ReadUint32 stor ⟨stor.length - 4, stor.length⟩ =
      (⟨stor.length - 4 + 4, stor.length⟩, .ok (indexStart stor)) := by
    unfold ReadUint32
    simp only [hlast, hlen4, if_true, indexStart]
  unfold Open
  rw [hseek]
  simp only [Int.toNat_ofNat, hread]
  unfold indexEnd
  by_cases h1 : stor.length - 4 < indexStart stor
  · rw [if_pos h1, if_pos (by omega)]
  rw [if_neg h1, if_neg (by omega)]
  by_cases h2 : indexStart stor = stor.length - 4
  · rw [if_pos h2, if_pos (by omega)]
  rw [if_neg h2, if_neg (by omega)]
  have hseek2 : Seek stor ((indexStart stor : Nat) : Int) .SeekStart =
      some ((indexStart stor : Nat) : Int) := by
    unfold Seek
    simp only
    rw [if_neg (by omega)]
  rw [hseek2]
  simp only
  have hrd : NewSectionReader (indexStart stor)
      (Int.toNat (((stor.length - 4 : Nat) : Int) - ((indexStart stor : Nat) : Int))) =
      ⟨indexStart stor, stor.length - 4⟩ := by
    unfold NewSectionReader
    simp only [Int.toNat_ofNat, SectionReader.mk.injEq, true_and]
    omega
  rw [hrd, openLoop_eq_parseIndex stor (stor.length - 4) (by omega) _ _ _ (by omega)]
  rfl

/-- `Open` returns: the bound on the passes of its entry loop is never
reached. -/
theorem Open_returns (stor : Bytes) : Open stor ≠ none := by
  by_cases h : 4 ≤ stor.length
  · rw [Open_eq stor h]
    split_ifs
    · simp
    · simp
    · have hp := parseIndex_returns stor.length (indexBytes stor) []
        (by
          unfold indexBytes indexEnd
          rw [List.length_take, List.length_drop]
          omega)
      rcases hr : parseIndex stor.length (indexBytes stor) [] with _ | (e | idx)
      · exact absurd hr hp
      · simp
      · simp
  · unfold Open Seek
    simp only
    rw [if_pos (by omega)]
    simp

theorem indexSection_eq_nil {idx : List sparseIndexEntry} (h : indexSection idx = []) :
    idx = [] := by
  cases idx with
  | nil => rfl
  | cons e es =>
    rw [indexSection_cons] at h
    have := congrArg List.length h
    simp at this

theorem Open_reader (stor : Bytes) (h : 4 ≤ stor.length) (t : Table)
    (ht : Open stor = some (.ok t)) : t.reader = stor := by
  rw [Open_eq stor h] at ht
  by_cases h1 : indexEnd stor < indexStart stor
  · rw [if_pos h1] at ht; simp at ht
  rw [if_neg h1] at ht
  by_cases h2 : indexStart stor = indexEnd stor
  · rw [if_pos h2] at ht
    simp only [Option.some.injEq, Except.ok.injEq] at ht
    rw [← ht]
  rw [if_neg h2] at ht
  rcases hr : parseIndex stor.length (indexBytes stor) [] with _ | (e | res)
  · rw [hr] at ht; simp at ht
  · rw [hr] at ht; simp at ht
  · rw [hr] at ht
    simp only [Option.some.injEq, Except.ok.injEq] at ht
    rw [← ht]

theorem Open_ok_iff (stor : Bytes) (h : 4 ≤ stor.length) (idx : List sparseIndexEntry) :
    Open stor = some (.ok ⟨stor, idx⟩) ↔
      (indexStart stor ≤ indexEnd stor ∧ (∀ e ∈ idx, e.Fits) ∧
        indexBytes stor = indexSection idx) := by
  have hbytes : (indexBytes stor).length < stor.length := by
    unfold indexBytes indexEnd
    rw [List.length_take, List.length_drop]
    omega
  rw [Open_eq stor h]
  by_cases h1 : indexEnd stor < indexStart stor
  · rw [if_pos h1]
    simp only [Option.some.injEq, reduceCtorEq, false_iff, not_and]
    intro h2; omega
  rw [if_neg h1]
  by_cases h2 : indexStart stor = indexEnd stor
  · rw [if_pos h2]
    have hnil : indexBytes stor = [] := by
      unfold indexBytes; rw [h2, Nat.sub_self, List.take_zero]
    simp only [Option.some.injEq, Except.ok.injEq, Table.mk.injEq, true_and, hnil]
    constructor
    · intro hidx
      subst hidx
      exact ⟨by omega, by simp, by simp [indexSection]⟩
    · intro ⟨_, _, hsec⟩
      exact (indexSection_eq_nil hsec.symm).symm
  rw [if_neg h2]
  constructor
  · intro hopen
    rcases hr : parseIndex stor.length (indexBytes stor) [] with _ | (e | res)
    · rw [hr] at hopen; simp at hopen
    · rw [hr] at hopen; simp at hopen
    · rw [hr] at hopen
      simp only [Option.some.injEq, Except.ok.injEq, Table.mk.injEq, true_and] at hopen
      subst hopen
      obtain ⟨es, hres, hfit, hsec⟩ := parseIndex_sound _ _ _ _ hr
      simp only [List.nil_append] at hres
      subst hres
      exact ⟨by omega, hfit, hsec⟩
  · intro ⟨_, hfit, hsec⟩
    have hlen : idx.length < stor.length := by
      have h8 : ∀ es : List sparseIndexEntry, es.length ≤ (indexSection es).length := by
        intro es
        induction es with
        | nil => simp
        | cons e es ih =>
          rw [indexSection_cons]
          simp only [List.length_cons, List.length_append, PutUint32_length]
          omega
      have := h8 idx
      rw [← hsec] at this
      omega
    rw [hsec, parseIndex_complete idx stor.length [] hfit hlen]
    simp

/-- C7. For a source of at least four bytes, with `indexStart` the
little-endian value of its last four bytes and `indexEnd` its length minus
four: `Open` succeeds with the sparse index `idx` exactly when
`indexStart ≤ indexEnd` and the bytes in `[indexStart, indexEnd)` are the
concatenation of the entries of `idx`, each as length, key, offset (key length
and offset being `uint32` values). `Open` returns an error exactly when the
bytes are no such concatenation; it never answers with a shorter index. -/
theorem Open_index_iff (stor : Bytes) (h : 4 ≤ stor.length) :
    (∀ idx : List sparseIndexEntry,
      Open stor = some (.ok ⟨stor, idx⟩) ↔
        (indexStart stor ≤ indexEnd stor ∧ (∀ e ∈ idx, e.Fits) ∧
          indexBytes stor = indexSection idx)) ∧
    (∀ t, Open stor = some (.ok t) → t.reader = stor) ∧
    ((∃ err, Open stor = some (.error err)) ↔
      ¬ (indexStart stor ≤ indexEnd stor ∧
        ∃ idx : List sparseIndexEntry, (∀ e ∈ idx, e.Fits) ∧
          indexBytes stor = indexSection idx)) := by
  have key := Open_ok_iff stor h
  refine ⟨key, Open_reader stor h, ?_⟩
  constructor
  · rintro ⟨err, herr⟩ ⟨hle, idx, hfit, hsec⟩
    have := (key idx).mpr ⟨hle, hfit, hsec⟩
    rw [this] at herr
    simp at herr
  · intro hnot
    rcases hr : Open stor with _ | (err | t)
    · exact absurd hr (Open_returns stor)
    · exact ⟨err, rfl⟩
    · exfalso
      apply hnot
      have hreader : t.reader = stor := Open_reader stor h t hr
      have ht : t = ⟨stor, t.sparseIndex⟩ := by
        cases t; simp only at hreader; rw [hreader]
      rw [ht] at hr
      obtain ⟨hle, hfit, hsec⟩ := (key t.sparseIndex).mp hr
      exact ⟨hle, t.sparseIndex, hfit, hsec⟩

/-- C8. For a source of at least four bytes whose footer word `indexStart` is
not below `indexEnd`, its length minus four: when the two are equal `Open`
succeeds with an empty sparse index, whatever the bytes before the footer are,
and when `indexStart` is larger `Open` returns an error and no table. -/
theorem Open_footer_cases (stor : Bytes) (h : 4 ≤ stor.length)
    (hcase : indexEnd stor ≤ indexStart stor) :
    Open stor =
      if indexStart stor = indexEnd stor then some (.ok ⟨stor, []⟩)
      else some (.error .indexStartPastEnd) := by
  rw [Open_eq stor h]
  by_cases h1 : indexStart stor = indexEnd stor
  · rw [if_neg (by omega), if_pos h1, if_pos h1]
  · rw [if_pos (by omega), if_neg h1]

theorem Open_footer_cases_witness :
    Open [9, 9, 2, 0, 0, 0] = some (.ok ⟨[9, 9, 2, 0, 0, 0], []⟩) ∧
    Open [9, 9, 3, 0, 0, 0] = some (.error .indexStartPastEnd) :=
  ⟨Open_footer_cases [9, 9, 2, 0, 0, 0] (by decide) (by decide),
    Open_footer_cases [9, 9, 3, 0, 0, 0] (by decide) (by decide)⟩

theorem Open_index_iff_witness :
    Open (Flush ⟨[([107], [118])], none⟩ acceptAll).written =
      some (.ok ⟨(Flush ⟨[([107], [118])], none⟩ acceptAll).written, [⟨[107], 0⟩]⟩) :=
  ((Open_index_iff (Flush ⟨[([107], [118])], none⟩ acceptAll).written (by decide)).1
    [⟨[107], 0⟩]).mpr
    ⟨by decide, by simp [sparseIndexEntry.Fits, wordSize], by decide⟩

theorem indexSection_length_sublist {a b : List sparseIndexEntry} (h : List.Sublist a b) :
    (indexSection a).length ≤ (indexSection b).length := by
  induction h with
  | slnil => exact Nat.le_refl _
  | cons e _ ih =>
    rw [indexSection_cons]
    simp only [List.length_append]
    omega
  | cons₂ e _ ih =>
    rw [indexSection_cons, indexSection_cons]
    simp only [List.length_append]
    omega

theorem indexSection_recordStarts (recs : List Record) : ∀ off,
    (indexSection (recordStarts off recs)).length ≤ dataSize recs := by
  induction recs with
  | nil => intro off; simp [recordStarts, indexSection, dataSize]
  | cons r rest ih =>
    intro off
    have := ih (off + recordSize r)
    simp only [recordStarts, indexSection_cons, List.length_append, PutUint32_length, dataSize,
      List.map_cons, List.sum_cons, recordSize] at this ⊢
    omega

theorem dataSize_pos {recs : List Record} (hne : recs ≠ []) : 8 ≤ dataSize recs := by
  cases recs with
  | nil => exact absurd rfl hne
  | cons r rest => simp only [dataSize, List.map_cons, List.sum_cons, recordSize]; omega

theorem Uint32_four (b0 b1 b2 b3 : Byte) :
    Uint32 [b0, b1, b2, b3] = b0.val + 256 * b1.val + 65536 * b2.val + 16777216 * b3.val := rfl

/-- C9, amended. For a store with at least one record whose data section is
shorter than `2 ^ 24` bytes and a sink that accepts all writes, `Open` applied
to the table `Flush` wrote with its final byte removed returns an error: the
four bytes it reads as footer give an index start past the index end. -/
theorem Open_truncated_fails (db : DB) (snk : Sink) (hsnk : snk.Accepts)
    (hne : db.records ≠ []) (hsize : (dataSection db.records).length < 2 ^ 24) :
    Open (Flush db snk).written.dropLast = some (.error .indexStartPastEnd) := by
  have hD := dataSection_length db.records
  have hD8 := dataSize_pos hne
  have hsub := Flush_index_sublist hsnk db hne (by rw [← hD]; unfold wordSize; omega)
  have hI := Nat.le_trans (indexSection_length_sublist hsub)
    (indexSection_recordStarts db.records 0)
  rw [Flush_written hsnk db hne]
  generalize hX : dataSection db.records ++ indexSection (Flush db snk).sparseIndex = X
  have hXlen : X.length = dataSize db.records +
      (indexSection (Flush db snk).sparseIndex).length := by
    rw [← hX, List.length_append, hD]
  have hXne : X ≠ [] := by
    intro hnil; rw [hnil] at hXlen; simp at hXlen; omega
  rw [hD]
  generalize hd : dataSize db.records = D at *
  generalize (indexSection (Flush db snk).sparseIndex).length = I at *
  have hT : (X ++ PutUint32 D).dropLast =
      X.dropLast ++ [X.getLast hXne, toByte D, toByte (D / 256), toByte (D / 65536)] := by
    conv_lhs => rw [← List.dropLast_append_getLast hXne]
    simp [PutUint32, List.dropLast]
  rw [hT]
  have hlen : (X.dropLast ++ [X.getLast hXne, toByte D, toByte (D / 256),
      toByte (D / 65536)]).length = X.length + 3 := by
    simp only [List.length_append, List.length_dropLast, List.length_cons, List.length_nil]
    have := List.length_pos_of_ne_nil hXne
    omega
  rw [Open_eq _ (by rw [hlen]; omega)]
  have hstart : indexStart (X.dropLast ++ [X.getLast hXne, toByte D, toByte (D / 256),
      toByte (D / 65536)]) = (X.getLast hXne).val + 256 * D := by
    unfold indexStart
    rw [hlen]
    have : X.length + 3 - 4 = X.dropLast.length := by
      rw [List.length_dropLast]
      have := List.length_pos_of_ne_nil hXne
      omega
    rw [this, List.drop_left, Uint32_four]
    simp only [toByte]
    omega
  have hend : indexEnd (X.dropLast ++ [X.getLast hXne, toByte D, toByte (D / 256),
      toByte (D / 65536)]) = X.length - 1 := by
    unfold indexEnd
    rw [hlen]
    omega
  rw [if_pos (by rw [hstart, hend]; omega)]

theorem Open_truncated_fails_witness :
    Open (Flush ⟨[([107], [118])], none⟩ acceptAll).written.dropLast =
      some (.error .indexStartPastEnd) :=
  Open_truncated_fails ⟨[([107], [118])], none⟩ acceptAll acceptAll_accepts (by decide)
    (by decide)

theorem indexSection_append (a b : List sparseIndexEntry) :
    indexSection (a ++ b) = indexSection a ++ indexSection b := by
  simp [indexSection]

theorem indexSection_replicate (m : Nat) :
    indexSection (List.replicate m ⟨[], 0⟩) = List.replicate (8 * m) (0 : Byte) := by
  induction m with
  | zero => rfl
  | succ m ih =>
    rw [List.replicate_succ, indexSection_cons, ih]
    have h8 : 8 * (m + 1) = 4 + (4 + 8 * m) := by omega
    rw [h8, List.replicate_add, List.replicate_add]
    rfl

theorem truncated_table_opens (zs : Bytes) (garbage : List sparseIndexEntry)
    (hlen : zs.length = 16777192) (hsec : indexSection garbage = zs)
    (hfit : ∀ e ∈ garbage, e.Fits) :
    (Flush ⟨[([107], [3, 0, 0, 0, 0, 0, 0, 0, 0, 0, 0] ++ zs ++ [4, 0, 0, 0])], none⟩
      acceptAll).outcome = .returned none ∧
    Open (Flush ⟨[([107], [3, 0, 0, 0, 0, 0, 0, 0, 0, 0, 0] ++ zs ++ [4, 0, 0, 0])], none⟩
      acceptAll).written.dropLast =
      some (.ok ⟨(Flush ⟨[([107], [3, 0, 0, 0, 0, 0, 0, 0, 0, 0, 0] ++ zs ++ [4, 0, 0, 0])],
        none⟩ acceptAll).written.dropLast,
        [⟨[107], 16777207⟩, ⟨[0, 0, 0], 0⟩] ++ garbage ++ [⟨[1, 0, 0, 0], 107⟩]⟩) := by
  rw [Flush_single acceptAll_accepts]
  refine ⟨rfl, ?_⟩
  have hv : ([3, 0, 0, 0, 0, 0, 0, 0, 0, 0, 0] ++ zs ++ [4, 0, 0, 0] : Bytes).length =
      16777207 := by
    simp only [List.length_append, List.length_cons, List.length_nil, hlen]
  have hk : ([107] : Bytes).length = 1 := rfl
  have hw : (FlushRun.mk (.returned none)
      [PutUint32 ([107] : Bytes).length, [107],
        PutUint32 ([3, 0, 0, 0, 0, 0, 0, 0, 0, 0, 0] ++ zs ++ [4, 0, 0, 0] : Bytes).length,
        [3, 0, 0, 0, 0, 0, 0, 0, 0, 0, 0] ++ zs ++ [4, 0, 0, 0],
        PutUint32 ([107] : Bytes).length, [107], PutUint32 0,
        PutUint32 ((8 + ([107] : Bytes).length +
          ([3, 0, 0, 0, 0, 0, 0, 0, 0, 0, 0] ++ zs ++ [4, 0, 0, 0] : Bytes).length) % wordSize)]
      [⟨[107], 0⟩]
      ((8 + ([107] : Bytes).length +
        ([3, 0, 0, 0, 0, 0, 0, 0, 0, 0, 0] ++ zs ++ [4, 0, 0, 0] : Bytes).length) %
          wordSize)).written.dropLast =
      ([1, 0, 0, 0, 107, 247, 255, 255, 0, 3, 0, 0, 0, 0, 0, 0, 0, 0, 0, 0] ++ zs ++
        [4, 0, 0, 0, 1, 0, 0, 0, 107, 0, 0, 0]) ++ [0, 0, 0, 0] := by
    rw [hv, hk]
    have h1 : PutUint32 1 = [1, 0, 0, 0] := by decide
    have h2 : PutUint32 16777207 = [247, 255, 255, 0] := by decide
    have h3 : PutUint32 0 = [0, 0, 0, 0] := by decide
    have h4 : PutUint32 ((8 + 1 + 16777207) % wordSize) = [0, 0, 0, 1] := by decide
    rw [h1, h2, h3, h4]
    simp only [FlushRun.written, List.flatten, List.append_assoc, List.cons_append,
      List.nil_append, List.append_nil]
    have hd : ∀ (a : Bytes), (a ++ [4, 0, 0, 0, 1, 0, 0, 0, 107, 0, 0, 0, 0, 0, 0, 0, 1]).dropLast =
        a ++ [4, 0, 0, 0, 1, 0, 0, 0, 107, 0, 0, 0, 0, 0, 0, 0] := by
      intro a
      rw [List.dropLast_append_of_ne_nil _ (by simp)]
      rfl
    have hd2 := hd ([1, 0, 0, 0, 107, 247, 255, 255, 0, 3, 0, 0, 0, 0, 0, 0, 0, 0, 0, 0] ++ zs)
    simp only [List.append_assoc, List.cons_append, List.nil_append] at hd2 ⊢
    exact hd2
  rw [hw]
  generalize hB : ([1, 0, 0, 0, 107, 247, 255, 255, 0, 3, 0, 0, 0, 0, 0, 0, 0, 0, 0, 0] ++ zs ++
        [4, 0, 0, 0, 1, 0, 0, 0, 107, 0, 0, 0] : Bytes) = body
  have hblen : body.length = 16777224 := by
    rw [← hB]
    simp only [List.length_append, List.length_cons, List.length_nil, hlen]
  have htot : (body ++ [0, 0, 0, 0] : Bytes).length = 16777228 := by
    rw [List.length_append, hblen]; rfl
  apply (Open_ok_iff (body ++ [0, 0, 0, 0]) (by rw [htot]; omega) _).mpr
  have hstart : indexStart (body ++ [0, 0, 0, 0]) = 0 := by
    unfold indexStart
    rw [htot, List.drop_left' (by rw [hblen])]
    rfl
  have hend : indexEnd (body ++ [0, 0, 0, 0]) = 16777224 := by
    unfold indexEnd; rw [htot]
  refine ⟨by rw [hstart]; omega, ?_, ?_⟩
  · intro e he
    simp only [List.mem_append, List.mem_cons, List.mem_singleton, List.not_mem_nil,
      or_false] at he
    rcases he with ((rfl | rfl) | he) | rfl
    · exact ⟨by decide, by decide⟩
    · exact ⟨by decide, by decide⟩
    · exact hfit e he
    · exact ⟨by decide, by decide⟩
  · unfold indexBytes
    rw [hstart, hend, List.drop_zero, Nat.sub_zero, List.take_left' hblen, ← hB]
    rw [indexSection_append, indexSection_append, hsec]
    have e1 : indexSection [⟨[107], 16777207⟩, ⟨[0, 0, 0], 0⟩] =
        [1, 0, 0, 0, 107, 247, 255, 255, 0, 3, 0, 0, 0, 0, 0, 0, 0, 0, 0, 0] := by decide
    have e2 : indexSection [⟨[1, 0, 0, 0], 107⟩] = [4, 0, 0, 0, 1, 0, 0, 0, 107, 0, 0, 0] := by
      decide
    rw [e1, e2]

/-- C9, counterexample. The table `Flush` writes for `truncationStore` has a
data section of exactly `2 ^ 24` bytes. With its final byte removed, the last
four bytes are zero, so `Open` takes the index to start at 0, reads the data
section as index entries and succeeds with an index of 2097152 entries. -/
theorem Open_truncated_succeeds :
    (Flush truncationStore acceptAll).outcome = .returned none ∧
    Open (Flush truncationStore acceptAll).written.dropLast =
      some (.ok ⟨(Flush truncationStore acceptAll).written.dropLast, truncationIndex⟩) := by
  have hsec : indexSection (List.replicate 2097149 ⟨[], 0⟩) =
      List.replicate 16777192 (0 : Byte) := indexSection_replicate 2097149
  have hfit : ∀ e ∈ List.replicate 2097149 (sparseIndexEntry.mk [] 0), e.Fits := by
    intro e he
    rw [List.eq_of_mem_replicate he]
    exact ⟨by decide, by decide⟩
  exact truncated_table_opens (List.replicate 16777192 0) (List.replicate 2097149 ⟨[], 0⟩)
    (List.length_replicate _ _) hsec hfit

theorem recordSize_le_dataSize {pre post : List Record} {r : Record} :
    dataSize pre + recordSize r ≤ dataSize (pre ++ r :: post) := by
  simp only [dataSize, List.map_append, List.map_cons, List.sum_append, List.sum_cons]
  omega

theorem recordStarts_fits (recs : List Record) (h : dataSize recs < wordSize)
    (e : sparseIndexEntry) (he : e ∈ recordStarts 0 recs) : e.Fits := by
  obtain ⟨pre, r, post, hrec, rfl⟩ := mem_recordStarts recs 0 e he
  have hle := @recordSize_le_dataSize pre post r
  rw [← hrec] at hle
  simp only [recordSize] at hle
  constructor
  · show r.1.length < wordSize
    omega
  · show 0 + dataSize pre < wordSize
    omega

theorem Flush_written_length {snk : Sink} (h : snk.Accepts) (db : DB) (hne : db.records ≠ []) :
    (Flush db snk).written.length =
      dataSize db.records + (indexSection (Flush db snk).sparseIndex).length + 4 := by
  rw [Flush_written h db hne]
  simp only [List.length_append, PutUint32_length, dataSection_length]

/-- C11. Index round trip: for a store with at least one record, a sink that
accepts all writes and a table shorter than `2 ^ 32` bytes, `Open` applied to
the bytes `Flush` wrote succeeds, and the sparse index of the table it returns
is the list of index entries `Flush` recorded, entry for entry. -/
theorem Open_Flush_index (db : DB) (snk : Sink) (hsnk : snk.Accepts)
    (hne : db.records ≠ []) (hsize : (Flush db snk).written.length < wordSize) :
    Open (Flush db snk).written =
      some (.ok ⟨(Flush db snk).written, (Flush db snk).sparseIndex⟩) := by
  have hlen := Flush_written_length hsnk db hne
  have hD : dataSize db.records < wordSize := by omega
  have hsub := Flush_index_sublist hsnk db hne hD
  have hw := Flush_written hsnk db hne
  rw [dataSection_length] at hw
  generalize hT : (Flush db snk).written = T at *
  generalize hidx : (Flush db snk).sparseIndex = idx at *
  have hdl := dataSection_length db.records
  have hstart : indexStart T = dataSize db.records := by
    unfold indexStart
    rw [hlen]
    have hdrop : T.drop (dataSize db.records + (indexSection idx).length + 4 - 4) =
        PutUint32 (dataSize db.records) := by
      rw [hw, Nat.add_sub_cancel]
      apply List.drop_left'
      rw [List.length_append, hdl]
    rw [hdrop, Uint32_PutUint32, Nat.mod_eq_of_lt hD]
  have hend : indexEnd T = dataSize db.records + (indexSection idx).length := by
    unfold indexEnd
    rw [hlen, Nat.add_sub_cancel]
  apply (Open_ok_iff T (by omega) idx).mpr
  refine ⟨by omega, fun e he => recordStarts_fits db.records hD e (hsub.subset he), ?_⟩
  unfold indexBytes
  rw [hstart, hend, Nat.add_sub_cancel_left, hw, List.append_assoc,
    List.drop_left' hdl, List.take_left' rfl]

theorem Open_Flush_index_witness :
    Open (Flush ⟨[([97], [1]), ([98], [2])], none⟩ acceptAll).written =
      some (.ok ⟨(Flush ⟨[([97], [1]), ([98], [2])], none⟩ acceptAll).written,
        (Flush ⟨[([97], [1]), ([98], [2])], none⟩ acceptAll).sparseIndex⟩) :=
  Open_Flush_index ⟨[([97], [1]), ([98], [2])], none⟩ acceptAll acceptAll_accepts
    (by decide) (by decide)

/-- C14. For a source shorter than four bytes, the empty one included, `Open`
returns an error and no table: the seek to four bytes before the end fails,
and nothing is read as a footer. -/
theorem Open_short_source (stor : Bytes) (h : stor.length < 4) :
    Open stor = some (.error .seekEnd) := by
  unfold Open Seek
  simp only
  rw [if_pos (by omega)]

theorem Open_short_source_witness :
    Open [] = some (.error .seekEnd) ∧ Open [10, 0, 0] = some (.error .seekEnd) :=
  ⟨Open_short_source [] (by decide), Open_short_source [10, 0, 0] (by decide)⟩

theorem recordSize_pos (r : Record) : 8 ≤ recordSize r := by
  unfold recordSize; omega

theorem codeCheckpoints_spaced (recs : List Record) : ∀ (cp off : Nat),
    off + dataSize recs + blockSize ≤ wordSize →
      (∀ e ∈ codeCheckpoints cp off recs, cp ≤ e.offset ∧ off ≤ e.offset) ∧
      (codeCheckpoints cp off recs).Chain' (fun a b => a.offset + blockSize ≤ b.offset) := by
  induction recs with
  | nil => intro cp off _; simp [codeCheckpoints]
  | cons r rest ih =>
    intro cp off h
    simp only [dataSize, List.map_cons, List.sum_cons] at h
    have hr := recordSize_pos r
    have hb : blockSize = 4096 := rfl
    have hoff : (off + recordSize r) % wordSize = off + recordSize r :=
      Nat.mod_eq_of_lt (by omega)
    have hcp : (off + blockSize) % wordSize = off + blockSize :=
      Nat.mod_eq_of_lt (by omega)
    have hrest : off + recordSize r + dataSize rest + blockSize ≤ wordSize := by
      simp only [dataSize]; omega
    simp only [codeCheckpoints, hoff, hcp]
    by_cases hc : cp ≤ off
    · rw [if_pos hc]
      obtain ⟨h1, h2⟩ := ih (off + blockSize) (off + recordSize r) hrest
      constructor
      · intro e he
        rcases List.mem_cons.mp he with rfl | he
        · exact ⟨hc, Nat.le_refl _⟩
        · have := h1 e he
          omega
      · rw [List.chain'_cons']
        refine ⟨?_, h2⟩
        intro y hy
        exact (h1 y (List.mem_of_mem_head? hy)).1
    · rw [if_neg hc]
      obtain ⟨h1, h2⟩ := ih cp (off + recordSize r) hrest
      refine ⟨?_, h2⟩
      intro e he
      have := h1 e he
      omega

theorem codeCheckpoints_count (recs : List Record) : ∀ (cp off : Nat),
    off + dataSize recs + blockSize ≤ wordSize →
      blockSize * (codeCheckpoints cp off recs).length + max cp off ≤
        max cp off + (off + dataSize recs + (blockSize - 1) - max cp off) := by
  induction recs with
  | nil => intro cp off _; simp [codeCheckpoints]
  | cons r rest ih =>
    intro cp off h
    simp only [dataSize, List.map_cons, List.sum_cons] at h
    have hr := recordSize_pos r
    have hb : blockSize = 4096 := rfl
    have hoff : (off + recordSize r) % wordSize = off + recordSize r :=
      Nat.mod_eq_of_lt (by omega)
    have hcp : (off + blockSize) % wordSize = off + blockSize :=
      Nat.mod_eq_of_lt (by omega)
    have hrest : off + recordSize r + dataSize rest + blockSize ≤ wordSize := by
      simp only [dataSize]; omega
    simp only [codeCheckpoints, hoff, hcp]
    have hds : dataSize (r :: rest) = recordSize r + dataSize rest := by
      simp [dataSize]
    rw [hds]
    by_cases hc : cp ≤ off
    · rw [if_pos hc]
      have := ih (off + blockSize) (off + recordSize r) hrest
      simp only [List.length_cons]
      rw [hb] at this ⊢
      rw [Nat.mul_add]
      omega
    · rw [if_neg hc]
      have := ih cp (off + recordSize r) hrest
      rw [hb] at this ⊢
      omega

theorem finalEntry_length (st : FlushState) :
    (finalEntry st).sparseIndex.length ≤ st.sparseIndex.length + 1 := by
  unfold finalEntry
  split_ifs
  · simp
  · omega

/-- C13, counterexample. The records of `wrapStore` serialize to less than
`2 ^ 32` bytes. The record loop of `Flush` records an entry for the second
record at offset `2 ^ 32 - 4096`, which sets the checkpoint to
`(2 ^ 32 - 4096 + 4096) mod 2 ^ 32 = 0`, and then an entry for the third record
10 bytes further on. -/
theorem Flush_index_dense :
    (dataSection wrapStore.records).length < wordSize ∧
    ∃ st, flushRecords wrapStore acceptAll = .ok st ∧
      st.sparseIndex = [⟨[97], 0⟩, ⟨[98], 4294963200⟩, ⟨[99], 4294963210⟩] ∧
      ¬ st.sparseIndex.Chain' (fun a b => a.offset + blockSize ≤ b.offset) := by
  have key : ∀ v : Bytes, v.length = 4294963191 →
      dataSize [([97], v), ([98], [1]), ([99], [2])] < wordSize ∧
      (List.foldl acceptedBody FlushState.init
        [([97], v), ([98], [1]), ([99], [2])]).sparseIndex =
        [⟨[97], 0⟩, ⟨[98], 4294963200⟩, ⟨[99], 4294963210⟩] := by
    intro v hv
    constructor
    · simp only [dataSize, recordSize, hv, List.map_cons, List.map_nil, List.sum_cons,
        List.sum_nil, List.length_cons, List.length_nil, wordSize]
      norm_num
    have s1 : acceptedBody FlushState.init ([97], v) =
        ⟨⟨4294963200, [PutUint32 1, [97], PutUint32 4294963191, v]⟩, [⟨[97], 0⟩], 4096,
          [97], v, [97], 0⟩ := by
      simp only [acceptedBody, FlushState.init, recordSize, hv, List.length_cons,
        List.length_nil, blockSize, wordSize]
      norm_num
    have s2 : acceptedBody ⟨⟨4294963200, [PutUint32 1, [97], PutUint32 4294963191, v]⟩,
        [⟨[97], 0⟩], 4096, [97], v, [97], 0⟩ ([98], [1]) =
        ⟨⟨4294963210, [PutUint32 1, [97], PutUint32 4294963191, v] ++
            [PutUint32 1, [98], PutUint32 1, [1]]⟩,
          [⟨[97], 0⟩, ⟨[98], 4294963200⟩], 0, [98], [1], [98], 4294963200⟩ := by
      simp only [acceptedBody, recordSize, List.length_cons, List.length_nil, blockSize,
        wordSize]
      norm_num
    have s3 : (acceptedBody ⟨⟨4294963210, [PutUint32 1, [97], PutUint32 4294963191, v] ++
            [PutUint32 1, [98], PutUint32 1, [1]]⟩,
          [⟨[97], 0⟩, ⟨[98], 4294963200⟩], 0, [98], [1], [98], 4294963200⟩
          ([99], [2])).sparseIndex =
        [⟨[97], 0⟩, ⟨[98], 4294963200⟩, ⟨[99], 4294963210⟩] := by
      simp only [acceptedBody]
      norm_num
    rw [List.foldl_cons, List.foldl_cons, List.foldl_cons, List.foldl_nil, s1, s2, s3]
  obtain ⟨k1, k2⟩ := key (List.replicate 4294963191 0) (List.length_replicate _ _)
  refine ⟨?_, _, flushRecords_accepts acceptAll_accepts wrapStore (List.cons_ne_nil _ _), k2, ?_⟩
  · rw [dataSection_length]
    exact k1
  · show ¬ (List.foldl acceptedBody FlushState.init
      [([97], List.replicate 4294963191 0), ([98], [1]), ([99], [2])]).sparseIndex.Chain' _
    rw [k2]
    simp [List.Chain', blockSize]

/-- C13, amended. Index sparseness: for a store with at least one record whose
data section ends at least one block size below `2 ^ 32`, and a sink that
accepts all writes, any two consecutive entries the record loop of `Flush`
records have offsets at least 4096 apart, and the index `Flush` records has at
most `ceil(D / 4096) + 1` entries for a data section of `D` bytes. -/
theorem Flush_index_sparse (db : DB) (snk : Sink) (hsnk : snk.Accepts)
    (hne : db.records ≠ [])
    (hsize : (dataSection db.records).length + blockSize ≤ wordSize) :
    (∃ st, flushRecords db snk = .ok st ∧
      st.sparseIndex.Chain' (fun a b => a.offset + blockSize ≤ b.offset)) ∧
    (Flush db snk).sparseIndex.length ≤
      ((dataSection db.records).length + (blockSize - 1)) / blockSize + 1 := by
  rw [dataSection_length] at hsize ⊢
  have hloop : (db.records.foldl acceptedBody FlushState.init).sparseIndex =
      codeCheckpoints 0 0 db.records := by
    rw [foldl_index]; rfl
  have hsp := codeCheckpoints_spaced db.records 0 0 (by omega)
  have hcount := codeCheckpoints_count db.records 0 0 (by omega)
  constructor
  · exact ⟨_, flushRecords_accepts hsnk db hne, by rw [hloop]; exact hsp.2⟩
  · rw [Flush_accepts hsnk db hne]
    simp only
    have hfin := finalEntry_length (db.records.foldl acceptedBody FlushState.init)
    rw [hloop] at hfin
    have hb : blockSize = 4096 := rfl
    rw [hb] at hcount ⊢
    have : (codeCheckpoints 0 0 db.records).length ≤ (dataSize db.records + (4096 - 1)) / 4096 := by
      rw [Nat.le_div_iff_mul_le (by decide)]
      omega
    omega

theorem Flush_index_sparse_witness :
    (∃ st, flushRecords ⟨[([97], [1]), ([98], [2])], none⟩ acceptAll = .ok st ∧
      st.sparseIndex.Chain' (fun a b => a.offset + blockSize ≤ b.offset)) ∧
    (Flush ⟨[([97], [1]), ([98], [2])], none⟩ acceptAll).sparseIndex.length ≤
      ((dataSection (DB.mk [([97], [1]), ([98], [2])] none).records).length +
        (blockSize - 1)) / blockSize + 1 :=
  Flush_index_sparse ⟨[([97], [1]), ([98], [2])], none⟩ acceptAll acceptAll_accepts
    (by decide) (by decide)

theorem codeCheckpoints_cover (recs : List Record) : ∀ (cp off : Nat) (pre : List Record)
    (r : Record) (post : List Record), off + dataSize recs < wordSize →
    recs = pre ++ r :: post →
      (∃ e ∈ codeCheckpoints cp off recs,
        e.offset ≤ off + dataSize pre ∧ off + dataSize pre < e.offset + blockSize) ∨
      off + dataSize pre < cp := by
  induction recs with
  | nil => intro cp off pre r post _ h; simp at h
  | cons r0 rest ih =>
    intro cp off pre r post hsize hrec
    simp only [dataSize, List.map_cons, List.sum_cons] at hsize
    have hoff : (off + recordSize r0) % wordSize = off + recordSize r0 :=
      Nat.mod_eq_of_lt (by omega)
    have hrest : off + recordSize r0 + dataSize rest < wordSize := by
      simp only [dataSize]; omega
    have hb : 0 < blockSize := by decide
    simp only [codeCheckpoints, hoff]
    cases pre with
    | nil =>
      simp only [List.nil_append, List.cons.injEq] at hrec
      simp only [dataSize, List.map_nil, List.sum_nil, Nat.add_zero]
      by_cases hc : cp ≤ off
      · left
        rw [if_pos hc]
        exact ⟨⟨r0.1, off⟩, List.mem_cons_self _ _, Nat.le_refl _, by simp only; omega⟩
      · right; omega
    | cons p0 pre1 =>
      simp only [List.cons_append, List.cons.injEq] at hrec
      obtain ⟨hp, hrec⟩ := hrec
      subst hp
      have hds : off + dataSize (r0 :: pre1) = off + recordSize r0 + dataSize pre1 := by
        simp only [dataSize, List.map_cons, List.sum_cons]; omega
      rw [hds]
      by_cases hc : cp ≤ off
      · rw [if_pos hc]
        left
        rcases ih ((off + blockSize) % wordSize) (off + recordSize r0) pre1 r post hrest hrec
          with ⟨e, he, h1, h2⟩ | h
        · exact ⟨e, List.mem_cons_of_mem _ he, h1, h2⟩
        · refine ⟨⟨r0.1, off⟩, List.mem_cons_self _ _, by simp only; omega, ?_⟩
          have := Nat.mod_le (off + blockSize) wordSize
          simp only
          omega
      · rw [if_neg hc]
        rcases ih cp (off + recordSize r0) pre1 r post hrest hrec with ⟨e, he, h1, h2⟩ | h
        · exact Or.inl ⟨e, he, h1, h2⟩
        · exact Or.inr h

theorem finalEntry_index (st : FlushState) :
    ∃ tail, (finalEntry st).sparseIndex = st.sparseIndex ++ tail := by
  unfold finalEntry
  split_ifs
  · exact ⟨_, rfl⟩
  · exact ⟨[], by simp⟩

theorem Flush_index_loop {snk : Sink} (h : snk.Accepts) (db : DB) (hne : db.records ≠ []) :
    ∃ tail, (Flush db snk).sparseIndex = codeCheckpoints 0 0 db.records ++ tail := by
  rw [Flush_accepts h db hne]
  obtain ⟨tail, ht⟩ := finalEntry_index (db.records.foldl acceptedBody FlushState.init)
  refine ⟨tail, ?_⟩
  simp only [ht, foldl_index]
  rfl

theorem Flush_index_cover {snk : Sink} (h : snk.Accepts) (db : DB) (hne : db.records ≠ [])
    (hsize : dataSize db.records < wordSize) (pre : List Record) (r : Record)
    (post : List Record) (hrec : db.records = pre ++ r :: post) :
    ∃ e ∈ (Flush db snk).sparseIndex,
      e.offset ≤ dataSize pre ∧ dataSize pre < e.offset + blockSize := by
  obtain ⟨tail, ht⟩ := Flush_index_loop h db hne
  rcases codeCheckpoints_cover db.records 0 0 pre r post (by omega) hrec with
    ⟨e, he, h1, h2⟩ | hlt
  · refine ⟨e, ?_, by omega, by omega⟩
    rw [ht]
    exact List.mem_append_left _ he
  · omega

theorem sorted_split {pre post : List Record} {r : Record}
    (h : ((pre ++ r :: post).map Prod.fst).Chain' keyLt) :
    (∀ x ∈ pre, keyLt x.1 r.1) ∧ (∀ y ∈ post, keyLt r.1 y.1) := by
  have hp := List.chain'_iff_pairwise.mp h
  rw [List.map_append, List.map_cons, List.pairwise_append, List.pairwise_cons] at hp
  obtain ⟨_, ⟨h2, _⟩, h3⟩ := hp
  constructor
  · intro x hx
    exact h3 x.1 (List.mem_map_of_mem _ hx) r.1 (List.mem_cons_self _ _)
  · intro y hy
    exact h2 y.1 (List.mem_map_of_mem _ hy)

/-- C12. Index coverage within one block: for a store with at least one record
whose data section is shorter than `2 ^ 32` bytes, and a sink that accepts all
writes, the first index entry `Flush` records is the key of the first record
with offset 0, and every record, starting at offset `o`, has an index entry
with an offset `o'` such that `o' ≤ o` and `o - o' < 4096`. Where the keys are
strictly ascending, as an ordered store hands them out, the last index entry
whose key is not above the key of a record points at the start of a record at
or before it, the records from there to it lie one after the other in the
data section, and fewer than 4096 bytes lie between the two. -/
theorem Flush_index_coverage (db : DB) (snk : Sink) (hsnk : snk.Accepts)
    (hne : db.records ≠ []) (hsize : (dataSection db.records).length < wordSize) :
    (∃ r rest, db.records = r :: rest ∧
      (Flush db snk).sparseIndex.head? = some ⟨r.1, 0⟩) ∧
    (∀ pre r post, db.records = pre ++ r :: post →
      ∃ e ∈ (Flush db snk).sparseIndex,
        e.offset ≤ (dataSection pre).length ∧
          (dataSection pre).length - e.offset < blockSize) ∧
    ((db.records.map Prod.fst).Chain' keyLt →
      ∀ pre r post, db.records = pre ++ r :: post →
        ∃ a e b pre1 mid first more,
          (Flush db snk).sparseIndex = a ++ e :: b ∧
          keyLe e.key r.1 ∧ (∀ x ∈ b, keyLt r.1 x.key) ∧
          pre = pre1 ++ mid ∧ mid ++ [r] = first :: more ∧
          e.key = first.1 ∧ e.offset = (dataSection pre1).length ∧
          (dataSection mid).length < blockSize) := by
  rw [dataSection_length] at hsize
  refine ⟨?_, ?_, ?_⟩
  · obtain ⟨tail, ht⟩ := Flush_index_loop hsnk db hne
    cases hrecs : db.records with
    | nil => exact absurd hrecs hne
    | cons r rest =>
      refine ⟨r, rest, rfl, ?_⟩
      rw [ht, hrecs]
      simp [codeCheckpoints]
  · intro pre r post hrec
    obtain ⟨e, he, h1, h2⟩ := Flush_index_cover hsnk db hne hsize pre r post hrec
    refine ⟨e, he, ?_, ?_⟩
    · rw [dataSection_length]; exact h1
    · rw [dataSection_length]; omega
  · intro hasc pre r post hrec
    obtain ⟨e0, he0, h01, h02⟩ := Flush_index_cover hsnk db hne hsize pre r post hrec
    have hsub := Flush_index_sublist hsnk db hne hsize
    rw [hrec] at hasc
    obtain ⟨hbefore, hafter⟩ := sorted_split hasc
    have hsplit : db.records = (pre ++ [r]) ++ post := by rw [hrec]; simp
    rw [hsplit, recordStarts_append] at hsub
    obtain ⟨a1, b, hidx, ha1, hb⟩ := List.sublist_append_iff.mp hsub
    have hdpre : dataSize (pre ++ [r]) = dataSize pre + recordSize r := by
      simp [dataSize]
    -- the entries of `b` belong to records after `r`
    have hboff : ∀ x ∈ b, dataSize pre + recordSize r ≤ x.offset := by
      intro x hx
      have := recordStarts_ge post _ x (hb.subset hx)
      rw [hdpre] at this
      omega
    have hbkey : ∀ x ∈ b, keyLt r.1 x.key := by
      intro x hx
      have hm : x.key ∈ (recordStarts (0 + dataSize (pre ++ [r])) post).map
          sparseIndexEntry.key := List.mem_map_of_mem _ (hb.subset hx)
      rw [recordStarts_keys] at hm
      obtain ⟨y, hy, hyk⟩ := List.mem_map.mp hm
      rw [← hyk]
      exact hafter y hy
    have hr8 := recordSize_pos r
    have he0a : e0 ∈ a1 := by
      rw [hidx] at he0
      rcases List.mem_append.mp he0 with h | h
      · exact h
      · have := hboff e0 h
        omega
    have ha1ne : a1 ≠ [] := List.ne_nil_of_mem he0a
    obtain ⟨a, e, ha⟩ : ∃ a e, a1 = a ++ [e] :=
      ⟨a1.dropLast, a1.getLast ha1ne, (List.dropLast_append_getLast ha1ne).symm⟩
    have hemem : e ∈ recordStarts 0 (pre ++ [r]) :=
      ha1.subset (by rw [ha]; simp)
    obtain ⟨p1, first, more, hpr, hedef⟩ := mem_recordStarts _ 0 e hemem
    obtain ⟨mid, x, hmx⟩ : ∃ mid x, first :: more = mid ++ [x] :=
      ⟨(first :: more).dropLast, (first :: more).getLast (List.cons_ne_nil _ _),
        (List.dropLast_append_getLast (List.cons_ne_nil _ _)).symm⟩
    have hpr2 : pre ++ [r] = (p1 ++ mid) ++ [x] := by
      rw [hpr, hmx, List.append_assoc]
    obtain ⟨hpre, hx⟩ := List.append_inj' hpr2 rfl
    simp only [List.cons.injEq, and_true] at hx
    subst hx
    -- offsets of the entries of `a1` increase, so `e`, the last one, is not before `e0`
    have hoffs := (recordStarts_offsets (pre ++ [r]) 0).sublist
      (ha1.map sparseIndexEntry.offset)
    rw [ha, List.map_append, List.pairwise_append] at hoffs
    have he0e : e0.offset ≤ e.offset := by
      rw [ha] at he0a
      rcases List.mem_append.mp he0a with h | h
      · exact Nat.le_of_lt (hoffs.2.2 e0.offset (List.mem_map_of_mem _ h) e.offset (by simp))
      · rw [List.mem_singleton.mp h]
    have hdsplit : dataSize pre = dataSize p1 + dataSize mid := by
      rw [hpre, dataSize_append]
    have heoff : e.offset = dataSize p1 := by rw [hedef]; simp
    refine ⟨a, e, b, p1, mid, first, more, ?_, ?_, hbkey, hpre, hmx.symm, ?_, ?_, ?_⟩
    · rw [hidx, ha]; simp
    · have hfirst : first ∈ mid ++ [r] := by rw [← hmx]; exact List.mem_cons_self _ _
      have hk : e.key = first.1 := by rw [hedef]
      rw [hk]
      rcases List.mem_append.mp hfirst with h | h
      · right
        exact hbefore first (by rw [hpre]; exact List.mem_append_right _ h)
      · left
        rw [List.mem_singleton.mp h]
    · rw [hedef]
    · rw [dataSection_length]; exact heoff
    · rw [dataSection_length]; omega

theorem Flush_index_coverage_witness :
    (∃ r rest, (DB.mk [([97], [1]), ([98], [2])] none).records = r :: rest ∧
      (Flush ⟨[([97], [1]), ([98], [2])], none⟩ acceptAll).sparseIndex.head? =
        some ⟨r.1, 0⟩) ∧
    (∀ pre r post, (DB.mk [([97], [1]), ([98], [2])] none).records = pre ++ r :: post →
      ∃ e ∈ (Flush ⟨[([97], [1]), ([98], [2])], none⟩ acceptAll).sparseIndex,
        e.offset ≤ (dataSection pre).length ∧
          (dataSection pre).length - e.offset < blockSize) ∧
    (((DB.mk [([97], [1]), ([98], [2])] none).records.map Prod.fst).Chain' keyLt →
      ∀ pre r post, (DB.mk [([97], [1]), ([98], [2])] none).records = pre ++ r :: post →
        ∃ a e b pre1 mid first more,
          (Flush ⟨[([97], [1]), ([98], [2])], none⟩ acceptAll).sparseIndex = a ++ e :: b ∧
          keyLe e.key r.1 ∧ (∀ x ∈ b, keyLt r.1 x.key) ∧
          pre = pre1 ++ mid ∧ mid ++ [r] = first :: more ∧
          e.key = first.1 ∧ e.offset = (dataSection pre1).length ∧
          (dataSection mid).length < blockSize) :=
  Flush_index_coverage ⟨[([97], [1]), ([98], [2])], none⟩ acceptAll acceptAll_accepts
    (by decide) (by decide)

/-- `Flush` returns, with nil or with an error, on every store that has a
record or whose iterator hands back a key and a value when read without a
current record. -/
theorem Flush_returns (db : DB) (snk : Sink)
    (h : db.records ≠ [] ∨ db.exhaustedRead ≠ none) :
    ∃ err, (Flush db snk).outcome = .returned err := by
  have hp := (Flush_error_propagation db snk).2
  rcases ho : (Flush db snk).outcome with err | _
  · exact ⟨err, rfl⟩
  · rw [ho] at hp
    rcases h with h | h
    · exact absurd hp.2.1 h
    · exact absurd hp.2.2 h

/-- C10. Evaluation of `Flush` on a store without records whose iterator aborts
when read without a current record, with a sink that accepts all writes. The
body of the record loop reads the iterator before any record is known to
exist: `Flush` stops at that read. No call reached the sink, so no write was
answered with an error, and `Flush` has not returned nil. -/
theorem Flush_aborts_without_failed_write :
    (Flush ⟨[], none⟩ acceptAll).outcome = .aborted ∧
    (Flush ⟨[], none⟩ acceptAll).calls = [] ∧
    AllAccepted acceptAll (Flush ⟨[], none⟩ acceptAll).calls ∧
    (Flush ⟨[], none⟩ acceptAll).outcome ≠ .returned none := by
  have hcalls : (Flush ⟨[], none⟩ acceptAll).calls = [] := by decide
  refine ⟨by decide, hcalls, ?_, by decide⟩
  rw [hcalls]
  exact AllAccepted_nil acceptAll

end Storage
